import Mathlib

/-!
# abbtr: rule store, bottle substitution, script synchronisation

A shallow embedding of `main.go` of manuwarfare/abbtr.

* Text is a list of Unicode characters (`Str`): the Go strings the program
  handles are taken to be valid UTF-8.  The one place where the program
  makes bytes of its own, the escapes `\x` and octal of `strconv.Unquote`,
  is embedded by bytes (`Emit`), read as UTF-8 afterwards (`emitText`).
* The configuration file `abbtr.conf` is its content, a `Str`; `main` creates
  the file before any operation, so it is always there.  The directory
  `~/.local/bin` is a list of named entries; the operator is the list of the
  lines still to be typed, of which `fmt.Scanln` reads a word (`scanln`).
  The three make up a `World`.
* The configuration file is read and written without I/O error, and every
  line is shorter than `bufio.MaxScanTokenSize`.  What the file system
  answers for a script is a parameter (`Env`): the entry of `~/.local/bin`
  a name leads to (a name such as `../x` leads elsewhere), whether it can be
  written, whether it can be removed.  What lies outside `~/.local/bin`, or
  below a directory of it, is not part of the state.  The event log
  `abbtr.log` is not part of the state.
* The library functions the program calls (`bufio.Scanner`, `strconv.Unquote`,
  `bufio.Writer`, `regexp`, `strings`, `fmt.Scanln`) are embedded by what
  they compute on such text; `html.UnescapeString` is a parameter
  (`HtmlUnescape`).
-/

namespace Abbtr

/-- Text: the characters of a Go string. -/
abbrev Str := List Char

/-! ## `strings` and `unicode` -/

/-- The predicate `unicode.IsSpace`. -/
def isSpace (c : Char) : Bool :=
  let n := c.toNat
  (decide (9 ≤ n) && decide (n ≤ 13)) || n == 32 || n == 0x85 || n == 0xA0 || n == 0x1680
    || (decide (0x2000 ≤ n) && decide (n ≤ 0x200A)) || n == 0x2028 || n == 0x2029
    || n == 0x202F || n == 0x205F || n == 0x3000

/-- The function `strings.TrimSpace`. -/
def trimSpace (s : Str) : Str :=
  ((s.dropWhile isSpace).reverse.dropWhile isSpace).reverse

/-- The function `strings.HasPrefix`. -/
def hasPrefix (s p : Str) : Bool := p.isPrefixOf s

/-- The function `strings.TrimPrefix`. -/
def trimPrefix (s p : Str) : Str := if hasPrefix s p then s.drop p.length else s

/-- The call `strings.SplitN(line, "=", 2)`: `none` when the result has one
part (no `=`), else the text before the first `=` and the text after it. -/
def splitFirstEq : Str → Option (Str × Str)
  | [] => none
  | c :: t =>
    if c = '=' then some ([], t)
    else match splitFirstEq t with
      | some (a, b) => some (c :: a, b)
      | none => none

/-- The call `strings.Split(rule, " = ")`, the text read so far kept reversed
in `acc`: the separators are found left to right and do not overlap. -/
def splitSpaceEqSpace : Str → Str → List Str
  | [], acc => [acc.reverse]
  | ' ' :: '=' :: ' ' :: rest, acc => acc.reverse :: splitSpaceEqSpace rest []
  | c :: t, acc => splitSpaceEqSpace t (c :: acc)

/-- The format `"%s = %s"` of `fmt.Sprintf`. -/
def formatRule (name command : Str) : Str := name ++ " = ".toList ++ command

/-- The prefix `name+" = "` every lookup compares a line with. -/
def rulePrefix (name : Str) : Str := name ++ " = ".toList

/-! ## `bufio.Scanner` with `bufio.ScanLines` -/

/-- The lines of a text as `bufio.ScanLines` cuts them, before the carriage
return is dropped: a line ends at `\n`; what follows the last `\n` is a line
when it is not empty. -/
def rawLines : Str → List Str
  | [] => []
  | c :: t =>
    if c = '\n' then [] :: rawLines t
    else match rawLines t with
      | [] => [[c]]
      | l :: ls => (c :: l) :: ls

/-- The helper `dropCR` of `bufio`: one trailing `\r` is removed. -/
def dropCR (l : Str) : Str := if l.getLast? = some '\r' then l.dropLast else l

/-- The function `readLines`: every `scanner.Text()` of the file. -/
def readLines (content : Str) : List Str := (rawLines content).map dropCR

/-- The call `fmt.Fprintln(writer, line)`. -/
def fprintln (line : Str) : Str := line ++ ['\n']

/-! ## `strconv.Unquote` -/

/-- The helper `unhex` of `strconv`. -/
def unhex (c : Char) : Option Nat :=
  let n := c.toNat
  if 48 ≤ n ∧ n ≤ 57 then some (n - 48)
  else if 97 ≤ n ∧ n ≤ 102 then some (n - 97 + 10)
  else if 65 ≤ n ∧ n ≤ 70 then some (n - 65 + 10)
  else none

/-- The value of a run of hexadecimal digits, `none` when one is no digit. -/
def hexValue : List Char → Option Nat
  | [] => some 0
  | c :: t =>
    match unhex c, hexValue t with
    | some d, some v => some (d * 16 ^ t.length + v)
    | _, _ => none

/-- An octal digit of `strconv.UnquoteChar`. -/
def unoct (c : Char) : Option Nat :=
  let n := c.toNat
  if 48 ≤ n ∧ n ≤ 55 then some (n - 48) else none

/-- The predicate `utf8.ValidRune` on a number. -/
def validRune (v : Nat) : Bool := decide (v < 0xD800) || (decide (0xDFFF < v) && decide (v ≤ 0x10FFFF))

/-- The escapes of one character of `strconv.UnquoteChar(s, '"')`: the
character after the backslash, and the one it stands for. -/
def simpleEscape (c : Char) : Option Char :=
  if c = 'a' then some (Char.ofNat 7)
  else if c = 'b' then some (Char.ofNat 8)
  else if c = 'f' then some (Char.ofNat 12)
  else if c = 'n' then some '\n'
  else if c = 'r' then some '\r'
  else if c = 't' then some '\t'
  else if c = 'v' then some (Char.ofNat 11)
  else if c = '\\' then some '\\'
  else if c = '"' then some '"'
  else none

/-- What one turn of the loop of `strconv.Unquote` appends to its result: a
character in UTF-8 (`utf8.AppendRune`), or the one byte of an escape `\x` or
of an octal escape above 0x7F (`append(buf, byte(r))`). -/
inductive Emit where
  | char (c : Char)
  | byte (b : Nat)
  deriving DecidableEq, Repr

/-- The value of an escape that gives a byte: below 0x80 the byte is the
character of that number. -/
def emitByte (v : Nat) : Emit := if v < 0x80 then Emit.char (Char.ofNat v) else Emit.byte v

/-- The cases `x`, `u` and `U` of `strconv.UnquoteChar`: `n` hexadecimal
digits are read; for `u` and `U` the number must be a valid rune and gives
a character; the escape `\x` gives a byte. -/
def hexEscape (n : Nat) (rune : Bool) (s : Str) : Option (Emit × Str) :=
  if s.length < n then none
  else match hexValue (s.take n) with
    | none => none
    | some v =>
      if rune then
        if validRune v then some (Emit.char (Char.ofNat v), s.drop n) else none
      else some (emitByte v, s.drop n)

/-- The cases `0` to `7` of `strconv.UnquoteChar`: three octal digits, the
first of which is `c`, of a value up to 255; they give a byte. -/
def octalEscape (c : Char) : Str → Option (Emit × Str)
  | y :: z :: t =>
    match unoct c, unoct y, unoct z with
    | some a, some b, some d =>
      if a * 64 + b * 8 + d ≤ 255 then some (emitByte (a * 64 + b * 8 + d), t) else none
    | _, _, _ => none
  | _ => none

/-- The hard case of `strconv.UnquoteChar(s, '"')`: the text after a
backslash.  The escape of an apostrophe is refused inside double quotes, as
is every character the `switch` does not name. -/
def unquoteEscape : Str → Option (Emit × Str)
  | [] => none
  | c :: s =>
    match simpleEscape c with
    | some v => some (Emit.char v, s)
    | none =>
      if c = 'x' then hexEscape 2 false s
      else if c = 'u' then hexEscape 4 true s
      else if c = 'U' then hexEscape 8 true s
      else octalEscape c s

/-- The function `strconv.UnquoteChar(s, '"')` on the text after the opening
quote: the first character or escape sequence decoded, and the text left.
`none` is `ErrSyntax`. -/
def unquoteChar : Str → Option (Emit × Str)
  | [] => none
  | c :: t =>
    if c = '"' then none
    else if c = '\\' then unquoteEscape t
    else some (Emit.char c, t)

/-- The loop of `strconv.Unquote` over the text between the quotes: one
`UnquoteChar` a turn, a raw line break refused.  A double quote inside the
text ends the literal early and leaves a remainder, which `Unquote` refuses
as well, so `unquoteChar` refusing it is the same result.  `fuel` bounds the
turns; every turn consumes a character. -/
def unquoteLoop : Nat → Str → Option (List Emit)
  | _, [] => some []
  | 0, _ :: _ => none
  | fuel + 1, c :: t =>
    if c = '\n' then none
    else match unquoteChar (c :: t) with
      | none => none
      | some (r, rest) => (unquoteLoop fuel rest).map fun out => r :: out

/-- The byte `i` places further in the result, when it is a byte between
`lo` and `hi`: its six low bits. -/
def contByte (t : List Emit) (i lo hi : Nat) : Option Nat :=
  match t.get? i with
  | some (Emit.byte b) => if lo ≤ b ∧ b ≤ hi then some (b % 64) else none
  | _ => none

/-- The character of UTF-8 that starts with the byte `b0` followed by `t`,
as `utf8.DecodeRune` reads it (its table `first` and its `acceptRanges`):
the number of the character and how many bytes follow the first.  A
character appended by `utf8.AppendRune` starts with no continuation byte, so
only bytes of escapes continue a byte of an escape. -/
def decodeBytes (b0 : Nat) (t : List Emit) : Option (Nat × Nat) :=
  if 0xC2 ≤ b0 ∧ b0 ≤ 0xDF then
    match contByte t 0 0x80 0xBF with
    | some c1 => some (b0 % 32 * 64 + c1, 1)
    | none => none
  else if 0xE0 ≤ b0 ∧ b0 ≤ 0xEF then
    match contByte t 0 (if b0 = 0xE0 then 0xA0 else 0x80) (if b0 = 0xED then 0x9F else 0xBF),
      contByte t 1 0x80 0xBF with
    | some c1, some c2 => some (b0 % 16 * 4096 + c1 * 64 + c2, 2)
    | _, _ => none
  else if 0xF0 ≤ b0 ∧ b0 ≤ 0xF4 then
    match contByte t 0 (if b0 = 0xF0 then 0x90 else 0x80) (if b0 = 0xF4 then 0x8F else 0xBF),
      contByte t 1 0x80 0xBF, contByte t 2 0x80 0xBF with
    | some c1, some c2, some c3 => some (b0 % 8 * 262144 + c1 * 4096 + c2 * 64 + c3, 3)
    | _, _, _ => none
  else none

/-- The text the result of `strconv.Unquote` is: the characters appended,
and the characters the bytes of the escapes spell in UTF-8.  A byte that is
part of no character leaves the text this development is about (valid
UTF-8); it is shown as U+FFFD, the character Go reads in its place.  `skip`
counts the bytes of a character still to pass over. -/
def emitText : Nat → List Emit → Str
  | _, [] => []
  | skip + 1, _ :: t => emitText skip t
  | 0, Emit.char c :: t => c :: emitText 0 t
  | 0, Emit.byte b :: t =>
    match decodeBytes b t with
    | some (v, n) => Char.ofNat v :: emitText n t
    | none => Char.ofNat 0xFFFD :: emitText 0 t

/-- The call `strconv.Unquote("\"" + line + "\"")`; `none` is `ErrSyntax`. -/
def unquote (line : Str) : Option Str := (unquoteLoop line.length line).map (emitText 0)

/-! ## `bufio.Writer` and the two writers of the store -/

/-- The size of the buffer of `bufio.NewWriter`. -/
def bufSize : Nat := 4096

/-- The number of bytes of a text in UTF-8. -/
def utf8Len (s : Str) : Nat := (s.map Char.utf8Size).sum

/-- The longest prefix of a text that fits in `n` bytes. -/
def takeBytes : Nat → Str → Str
  | _, [] => []
  | n, c :: t => if c.utf8Size ≤ n then c :: takeBytes (n - c.utf8Size) t else []

/-- A `bufio.Writer` on a file created empty: all the text handed to `Write`
so far, how many of its bytes reached the file, how many wait in the buffer. -/
structure BufWriter where
  out : Str
  flushed : Nat
  buffered : Nat
  deriving DecidableEq, Repr

/-- The method `(*bufio.Writer).Write`: a text that fits is buffered; one that
does not fit goes to the file directly when the buffer is empty, else fills
the buffer, which is flushed, and the rest is buffered or written directly. -/
def BufWriter.write (w : BufWriter) (p : Str) : BufWriter :=
  let len := utf8Len p
  if len ≤ bufSize - w.buffered then
    { out := w.out ++ p, flushed := w.flushed, buffered := w.buffered + len }
  else if w.buffered = 0 then
    { out := w.out ++ p, flushed := w.flushed + len, buffered := 0 }
  else
    let rest := len - (bufSize - w.buffered)
    if rest > bufSize then
      { out := w.out ++ p, flushed := w.flushed + bufSize + rest, buffered := 0 }
    else
      { out := w.out ++ p, flushed := w.flushed + bufSize, buffered := rest }

/-- The content of the file when the writer is abandoned without `Flush`:
what was flushed (a cut inside a character drops that character). -/
def BufWriter.onDisk (w : BufWriter) : Str := takeBytes w.flushed w.out

/-- The loop of `writeLines`: each line is unquoted and printed; the first
line that does not unquote stops the loop with the error.  The result is
whether the loop ended without error, and the writer. -/
def writeLinesLoop : List Str → BufWriter → Bool × BufWriter
  | [], w => (true, w)
  | line :: rest, w =>
    match unquote line with
    | none => (false, w)
    | some unquotedLine => writeLinesLoop rest (w.write (fprintln unquotedLine))

/-- The function `writeLines`: `os.Create` empties the file, the loop runs,
and `writer.Flush()` is reached only without error.  The result is whether
`writeLines` returned `nil`, and the content of the file afterwards. -/
def writeLines (lines : List Str) : Bool × Str :=
  match writeLinesLoop lines { out := [], flushed := 0, buffered := 0 } with
  | (true, w) => (true, w.out)
  | (false, w) => (false, w.onDisk)

/-- The function `writeLinesWithLock`: the lines as they are, one a line. -/
def writeLinesWithLock (lines : List Str) : Str := (lines.map fprintln).flatten

/-! ## Reserved names -/

/-- The variable `reservedNames`. -/
def reservedNames : List String :=
  ["-h", "-l", "-n", "-r", "-c", "-ln", "-v", "-i", "-e", "-b",
   "-H", "-L", "-N", "-R", "-C", "-LN", "-V", "-I", "-E", "-B",
   "-lN", "-Ln",
   "-g", "-G", "-w", "-W", "-t", "-T", "-x", "-X", "-y", "-Y",
   "-z", "-Z", "-a", "-A",
   "su", "passwd", "clear", "exit", "logout", "reset", "whoami", "hostname",
   "sync", "uptime", "pwd", "yes", "true", "false", "cal", "date", "arch",
   "bg", "fg", "jobs", "tset", "lsblk"]

/-- The function `isReservedName`. -/
def isReservedName (name : Str) : Bool := reservedNames.any fun reserved => name == reserved.toList

/-! ## The state: configuration file, script directory, operator -/

/-- A file name: a path of one element, which `filepath.Join(binDir, name)`
puts directly inside `binDir`; it is not empty, neither `.` nor `..`, and
holds no `/`. -/
def isFileName (name : Str) : Bool :=
  !name.isEmpty && name != ".".toList && name != "..".toList && name.all fun c => c != '/'

/-- What the program reads from its environment and what the file system
answers.  `user` is `USER`; `logPath` is the path of the log
(`filepath.Join(HOME, logDir, logFileName)`).  `entryOf name` is the entry
of `~/.local/bin` that the path `filepath.Join(binDir, name)` is, when it is
one: the path is cleaned, so it depends on `HOME`, and a file name is its
own entry.  `nameOk` tells which entries the file system lets the program
write (or look for), `removable` which ones it lets it remove.  A path that
is no entry of `~/.local/bin` lies outside the state: `elsewhereWrite` and
`elsewhereRemove` tell whether writing and removing succeed there. -/
structure Env where
  user : Str
  logPath : Str
  nameOk : Str → Bool
  removable : Str → Bool
  entryOf : Str → Option Str
  elsewhereWrite : Str → Bool
  elsewhereRemove : Str → Bool
  entryOf_fileName : ∀ name : Str, isFileName name = true → entryOf name = some name

/-- An entry of `~/.local/bin`: a file with its content, or a directory,
empty or not. -/
inductive Node where
  | file (content : Str)
  | dir (isEmpty : Bool)
  deriving DecidableEq, Repr

/-- The state the operations act on: the content of `abbtr.conf`, the
entries of `~/.local/bin` (their order is immaterial), the lines the
operator has still to type (without their line breaks), and the names the
program has asked about. -/
structure World where
  store : Str
  bin : List (Str × Node)
  stdin : List Str
  asked : List Str
  deriving DecidableEq, Repr

/-- How an operation on one rule ends: the message it prints. -/
inductive Outcome where
  | reserved
  | cancelled
  | notFound
  | writeFailed
  | scriptFailed
  | done
  deriving DecidableEq, Repr

/-- The call `fmt.Scanln(&response)` with one string operand, on the line the
operator types: the white space before the word is skipped (`SkipSpace`); the
word is the run of characters up to the next white space (`token` with
`notSpace`), empty on a blank line ("unexpected newline"); the white space
after the word is read up to the end of the line.  A character found there
stops the read ("expected newline"): it is consumed, and what follows it on
the line is left for the next read.  The result is the word, and the rest of
the line when something is left. -/
def scanln (line : Str) : Str × Option Str :=
  let word := (line.dropWhile isSpace).takeWhile fun c => !isSpace c
  match (((line.dropWhile isSpace).dropWhile fun c => !isSpace c).dropWhile isSpace) with
  | [] => (word, none)
  | _ :: left => (word, some left)

/-- A prompt followed by `fmt.Scanln(&response)`: the word read from the
next line typed, the empty text when the input is at its end (the error of
`Scanln` is ignored, and `response` starts empty); the line is consumed, but
for what `scanln` leaves of it. -/
def ask (w : World) (about : Str) : Str × World :=
  match w.stdin with
  | [] => ([], { w with asked := w.asked ++ [about] })
  | line :: rest =>
    ((scanln line).1,
      { w with
        stdin := (match (scanln line).2 with
          | none => rest
          | some left => left :: rest)
        asked := w.asked ++ [about] })

/-- The text `scriptContent` of `createRule`, `updateRule`,
`importRulesFromFile` and `syncRulesWithScripts`; `event` is `EXECUTE_RULE`
or `UPDATE_RULE`. -/
def scriptContent (env : Env) (event : String) (name command : Str) : Str :=
  "#!/bin/bash\nstart=$(date +%s.%N)\n".toList ++ command
    ++ "\nend=$(date +%s.%N)\nduration=$(echo \"$end - $start\" | bc)\n".toList
    ++ "echo \"[$(date +'%Y-%m-%d %H:%M:%S')] ".toList ++ event.toList ++ " ".toList ++ env.user
    ++ " at $(hostname -I | awk '\x7bprint $1\x7d') | Rule: ".toList ++ name
    ++ ", Command: \"".toList ++ command
    ++ "\", Result: Success, Duration: $\x7bduration\x7ds\" >> ".toList ++ env.logPath
    ++ "\n".toList

/-- Replaces the content of the first file named `name`, or adds the file. -/
def putFile (name content : Str) : List (Str × Node) → List (Str × Node)
  | [] => [(name, Node.file content)]
  | (n, node) :: rest =>
    if n = name then (n, Node.file content) :: rest else (n, node) :: putFile name content rest

/-- The entry called `name`, if there is one. -/
def lookupNode (name : Str) (bin : List (Str × Node)) : Option Node :=
  (bin.find? fun e => e.1 == name).map Prod.snd

/-- The call `os.WriteFile(filepath.Join(binDir, name), content, 0755)`:
`none` is an error.  When the path is an entry of `~/.local/bin`, the file
is created or replaced there, unless the file system refuses it or the
entry is a directory; when the path leads elsewhere (a name such as `../x`
or `d/y`), the directory is as before, and the call succeeds or not as the
environment has it. -/
def writeFile (env : Env) (name content : Str) (bin : List (Str × Node)) :
    Option (List (Str × Node)) :=
  match env.entryOf name with
  | some entry =>
    if env.nameOk entry then
      match lookupNode entry bin with
      | some (Node.dir _) => none
      | _ => some (putFile entry content bin)
    else none
  | none => if env.elsewhereWrite name then some bin else none

/-- The call `os.Remove(filepath.Join(binDir, name))` with the test
`err != nil && !os.IsNotExist(err)` of `deleteRule`: `none` is an error that
is not "does not exist".  An entry that is not there is no error; a file or
an empty directory is removed when the file system allows it; a directory
that is not empty is an error; a path that leads elsewhere leaves the
directory as before. -/
def removeEntry (env : Env) (name : Str) (bin : List (Str × Node)) :
    Option (List (Str × Node)) :=
  match env.entryOf name with
  | some entry =>
    match lookupNode entry bin with
    | none => if env.nameOk entry then some bin else none
    | some (Node.dir false) => none
    | some _ => if env.removable entry then some (bin.filter fun e => !(e.1 == entry)) else none
  | none => if env.elsewhereRemove name then some bin else none

/-! ## Lookups in the store -/

/-- The function `getCommand`: the first line that starts with `name+" = "`,
without that prefix and trimmed; `none` is the error "rule not found". -/
def getCommand (store name : Str) : Option Str :=
  ((readLines store).find? fun line => hasPrefix line (rulePrefix name)).map
    fun line => trimSpace (trimPrefix line (rulePrefix name))

/-- The function `ruleExists`. -/
def ruleExists (store name : Str) : Bool :=
  (readLines store).any fun line => hasPrefix line (rulePrefix name)

/-- The function `getAllRules`: of every line with an `=`, the trimmed text
before the first one. -/
def getAllRules (store : Str) : List Str :=
  (readLines store).filterMap fun line => (splitFirstEq line).map fun parts => trimSpace parts.1

/-- The index of the first line that starts with `name+" = "`: the loop
`for i, line := range lines` with its `break`. -/
def findRule : List Str → Str → Option Nat
  | [], _ => none
  | line :: rest, name =>
    if hasPrefix line (rulePrefix name) then some 0
    else (findRule rest name).map fun i => i + 1

/-- The rules `listRules` prints: of every line with an `=`, the trimmed
text before the first one and the trimmed text after it. -/
def listRules (store : Str) : List (Str × Str) :=
  (readLines store).filterMap fun line =>
    (splitFirstEq line).map fun parts => (trimSpace parts.1, trimSpace parts.2)

/-! ## Operations on one rule -/

/-- The function `createRule`. -/
def createRule (env : Env) (name command : Str) (w : World) : Outcome × World :=
  let lines := readLines w.store
  if isReservedName name then (Outcome.reserved, w)
  else
    let step : Option (List Str × World) :=
      match findRule lines name with
      | some i =>
        let (response, w1) := ask w name
        if response ≠ "y".toList then none
        else some (lines.set i (formatRule name command), w1)
      | none => some (lines ++ [formatRule name command], w)
    match step with
    | none => (Outcome.cancelled, (ask w name).2)
    | some (lines1, w1) =>
      match writeLines lines1 with
      | (false, disk) => (Outcome.writeFailed, { w1 with store := disk })
      | (true, disk) =>
        match writeFile env name (scriptContent env "EXECUTE_RULE" name command) w1.bin with
        | none => (Outcome.scriptFailed, { w1 with store := disk })
        | some bin1 => (Outcome.done, { w1 with store := disk, bin := bin1 })

/-- The function `deleteRule`. -/
def deleteRule (env : Env) (name : Str) (w : World) : Outcome × World :=
  let lines := readLines w.store
  match findRule lines name with
  | none => (Outcome.notFound, w)
  | some i =>
    match writeLines (lines.eraseIdx i) with
    | (false, disk) => (Outcome.writeFailed, { w with store := disk })
    | (true, disk) =>
      match removeEntry env name w.bin with
      | none => (Outcome.scriptFailed, { w with store := disk })
      | some bin1 => (Outcome.done, { w with store := disk, bin := bin1 })

/-- The function `updateRule`; `initConfigFile` finds the file `main` has
already created. -/
def updateRule (env : Env) (name command : Str) (w : World) : Outcome × World :=
  let lines := readLines w.store
  if isReservedName name then (Outcome.reserved, w)
  else
    match findRule lines name with
    | none => (Outcome.notFound, w)
    | some i =>
      match writeLines (lines.set i (formatRule name command)) with
      | (false, disk) => (Outcome.writeFailed, { w with store := disk })
      | (true, disk) =>
        match writeFile env name (scriptContent env "UPDATE_RULE" name command) w.bin with
        | none => (Outcome.scriptFailed, { w with store := disk })
        | some bin1 => (Outcome.done, { w with store := disk, bin := bin1 })

/-- The function `deleteAllRules` without I/O failure, the file and the
directory being there and every `os.Remove` succeeding: the file is
truncated, and every entry of the directory that is not a directory is
removed. -/
def deleteAllRules (w : World) : World :=
  { w with
    store := []
    bin := w.bin.filter fun e =>
      match e.2 with
      | Node.dir _ => true
      | Node.file _ => false }

/-! ## `regexp`: the two patterns of the program -/

/-- A piece of a pattern: a literal character, `(C+)` or `(C*?)` for a
class `C` of characters; the last two are capture groups. -/
inductive Elem where
  | lit (c : Char)
  | plus (cls : Char → Bool)
  | lazyStar (cls : Char → Bool)

/-- Greedy `(C+)` followed by `k`, as a backtracking matcher runs it: one more
character is tried before stopping.  The result is the capture and the
result of `k`. -/
def plusGreedy {β : Type} (cls : Char → Bool) (k : Str → Option β) : Str → Option (Str × β)
  | [] => none
  | x :: t =>
    if cls x then
      match plusGreedy cls k t with
      | some (cap, r) => some (x :: cap, r)
      | none => (k t).map fun r => ([x], r)
    else none

/-- Lazy `(C*?)` followed by `k`: stopping is tried before one more character. -/
def starLazy {β : Type} (cls : Char → Bool) (k : Str → Option β) : Str → Option (Str × β)
  | [] => (k []).map fun r => ([], r)
  | x :: t =>
    match k (x :: t) with
    | some r => some ([], r)
    | none => if cls x then (starLazy cls k t).map fun cr => (x :: cr.1, cr.2) else none

/-- The match of a pattern at the start of a text, by the priorities of
`regexp` (leftmost-first): the captures in order, and the text after the
match. -/
def matchHere : List Elem → Str → Option (List Str × Str)
  | [], s => some ([], s)
  | Elem.lit c :: es, s =>
    match s with
    | x :: t => if x = c then matchHere es t else none
    | [] => none
  | Elem.plus cls :: es, s =>
    (plusGreedy cls (matchHere es) s).map fun r => (r.1 :: r.2.1, r.2.2)
  | Elem.lazyStar cls :: es, s =>
    (starLazy cls (matchHere es) s).map fun r => (r.1 :: r.2.1, r.2.2)

/-- The apostrophe that delimits the name of a bottle. -/
def apostrophe : Char := Char.ofNat 39

/-- A run of literal characters. -/
def lits (s : String) : List Elem := s.toList.map Elem.lit

/-- The pattern of `processBottles`, written in Go as
``b%\('([^']+)'\)%b``. -/
def bottleRe : List Elem :=
  lits "b%('" ++ [Elem.plus fun c => c != apostrophe] ++ lits "')%b"

/-- The pattern of `extractRules`, written in Go as ``b:([^=]+) = (.*?):b``;
the dot matches every character but the line break. -/
def ruleRe : List Elem :=
  lits "b:" ++ [Elem.plus fun c => c != '='] ++ lits " = "
    ++ [Elem.lazyStar fun c => c != '\n'] ++ lits ":b"

/-! ## Bottles -/

/-- The loop of `re.ReplaceAllStringFunc(command, f)` with the `f` of
`processBottles`: the matches are taken from left to right without overlap;
each is replaced by the value of its name in `bottleValues`, or else by the
answer of the operator; the text between matches is copied.  `fuel` bounds
the turns; every turn consumes a character. -/
def processBottlesLoop (bottleValues : Str → Option Str) : Nat → Str → World → Str × World
  | _, [], w => ([], w)
  | 0, s, w => (s, w)
  | fuel + 1, c :: t, w =>
    match matchHere bottleRe (c :: t) with
    | some (caps, rest) =>
      let bottleName := caps.headD []
      let vw : Str × World :=
        match bottleValues bottleName with
        | some value => (value, w)
        | none => ask w bottleName
      let r := processBottlesLoop bottleValues fuel rest vw.2
      (vw.1 ++ r.1, r.2)
    | none =>
      let r := processBottlesLoop bottleValues fuel t w
      (c :: r.1, r.2)

/-- The function `processBottles`; the map `bottleValues` is a partial
function. -/
def processBottles (command : Str) (bottleValues : Str → Option Str) (w : World) : Str × World :=
  processBottlesLoop bottleValues command.length command w

/-! ## Import and export -/

/-- The decoder `html.UnescapeString` of the Go library, of which this
development uses one fact: a text without `&` is returned as it is. -/
structure HtmlUnescape where
  run : Str → Str
  plain : ∀ s : Str, '&' ∉ s → run s = s

/-- The call `re.FindAllStringSubmatch(text, -1)` for the pattern of
`extractRules`: the captures of the successive matches.  `fuel` bounds the
turns; every turn consumes a character. -/
def findAllRules : Nat → Str → List (List Str)
  | _, [] => []
  | 0, _ => []
  | fuel + 1, c :: t =>
    match matchHere ruleRe (c :: t) with
    | some (caps, rest) => caps :: findAllRules fuel rest
    | none => findAllRules fuel t

/-- The function `extractRules`. -/
def extractRules (html : HtmlUnescape) (text : Str) : List Str :=
  (findAllRules text.length text).map fun m =>
    formatRule (trimSpace (m.headD [])) (html.run (trimSpace (m.tail.headD [])))

/-- One turn of the loop of `importRulesFromFile` over the extracted rules:
the state is the lines `existingRules` and the world. -/
def importRule (env : Env) (st : List Str × World) (rule : Str) : List Str × World :=
  match splitSpaceEqSpace rule [] with
  | [p0, p1] =>
    let name := trimSpace p0
    let command := trimSpace p1
    let st1 : List Str × World :=
      match findRule st.1 name with
      | some i =>
        let rw := ask st.2 name
        if rw.1 = "y".toList then (st.1.set i (formatRule name command), rw.2) else (st.1, rw.2)
      | none => (st.1 ++ [formatRule name command], st.2)
    match writeFile env name (scriptContent env "EXECUTE_RULE" name command) st1.2.bin with
    | some bin1 => (st1.1, { st1.2 with bin := bin1 })
    | none => st1
  | _ => st

/-- The function `importRulesFromFile` on the content of the file at
`filePath`. -/
def importRulesFromFile (env : Env) (html : HtmlUnescape) (file : Str) (w : World) : World :=
  let rulesText := ((readLines file).map fprintln).flatten
  let rules := extractRules html rulesText
  let st := rules.foldl (importRule env) (readLines w.store, w)
  { st.2 with store := writeLinesWithLock st.1 }

/-- The function `strings.Fields`, the field read so far kept reversed in
`acc`. -/
def fieldsAux : Str → Str → List Str
  | [], acc => if acc = [] then [] else [acc.reverse]
  | c :: t, acc =>
    if isSpace c then
      if acc = [] then fieldsAux t [] else acc.reverse :: fieldsAux t []
    else fieldsAux t (c :: acc)

/-- The first loop of `exportRules`: a blank answer selects all the rules; an
answer that names only rules selects them; any other is asked again.  The
result is the selection and the answers left. -/
def selectRules (store : Str) : List Str → List Str × List Str
  | [] => (getAllRules store, [])
  | text :: rest =>
    if text = [] then (getAllRules store, rest)
    else if (fieldsAux text []).all (ruleExists store) then (fieldsAux text [], rest)
    else selectRules store rest

/-- The format `"b:%s = %s:b"` of `exportRules`. -/
def portableLine (name command : Str) : Str :=
  "b:".toList ++ formatRule name command ++ ":b".toList

/-- The lines `exportContent` of `exportRules` for the rules selected and the
comment typed. -/
def exportContent (store : Str) (rules : List Str) (comment : Str) : List Str :=
  (if comment ≠ [] then ["#".toList ++ comment] else [])
    ++ rules.filterMap fun rule => (getCommand store rule).map fun command => portableLine rule command

/-- The function `writeToFile`: the content of the file it writes. -/
def writeToFile (content : List Str) : Str := (content.map fprintln).flatten

/-- The function `exportRules` up to the choice of the directory: the content
of `abbtr-rules.txt`, or `none` when no rule is selected; the answers are the
lines typed. -/
def exportRules (store : Str) (answers : List Str) : Option Str :=
  let sel := selectRules store answers
  if sel.1 = [] then none
  else some (writeToFile (exportContent store sel.1 (sel.2.headD [])))

/-! ## Synchronisation of the scripts -/

/-- The first loop of `syncRulesWithScripts`: every entry that is not a
directory and whose name is not a rule is removed, when the file system
allows it.  The result is the directory afterwards, and the names reported
with "Error deleting orphaned script". -/
def removeOrphans (env : Env) (rules : List Str) (bin : List (Str × Node)) :
    List (Str × Node) × List Str :=
  (bin.filter fun e =>
      match e.2 with
      | Node.dir _ => true
      | Node.file _ => rules.contains e.1 || !env.removable e.1,
    (bin.filter fun e =>
      match e.2 with
      | Node.dir _ => false
      | Node.file _ => !rules.contains e.1 && !env.removable e.1).map Prod.fst)

/-- One turn of the second loop of `syncRulesWithScripts`: the state is the
directory, the rules whose command was not found and the rules whose script
could not be written. -/
def syncRule (env : Env) (store : Str) (st : List (Str × Node) × List Str × List Str)
    (rule : Str) : List (Str × Node) × List Str × List Str :=
  match getCommand store rule with
  | none => (st.1, st.2.1 ++ [rule], st.2.2)
  | some command =>
    match writeFile env rule (scriptContent env "EXECUTE_RULE" rule command) st.1 with
    | none => (st.1, st.2.1, st.2.2 ++ [rule])
    | some bin1 => (bin1, st.2.1, st.2.2)

/-- The function `syncRulesWithScripts`, the directory being there and
readable: the directory afterwards, and the three reports it prints: the
files reported with "Error deleting orphaned script", the rules reported
with "Error getting command" and the rules reported with "Error
creating/updating script". -/
def syncRulesWithScripts (env : Env) (w : World) : World × List Str × List Str × List Str :=
  let rules := getAllRules w.store
  let cleared := removeOrphans env rules w.bin
  let st := rules.foldl (syncRule env w.store) (cleared.1, [], [])
  ({ w with bin := st.1 }, cleared.2, st.2.1, st.2.2)

/-! ## Words of the specification, and sample values -/

/-- A placeholder as the help text describes it: `b%('token')%b` with a
token that is not empty and holds no apostrophe. -/
def IsPlaceholder (p : Str) : Prop :=
  ∃ token : Str, token ≠ [] ∧ apostrophe ∉ token ∧ p = "b%('".toList ++ token ++ "')%b".toList

/-- The substitution as the specification words it: the command is read
from left to right; where a placeholder starts, it is replaced by the value
of its token and reading goes on after it; any other character is kept. -/
inductive Substituted (values : Str → Option Str) : Str → Str → Prop where
  | nil : Substituted values [] []
  | bottle (token value rest out : Str) :
      token ≠ [] → apostrophe ∉ token → values token = some value →
      Substituted values rest out →
      Substituted values ("b%('".toList ++ token ++ "')%b".toList ++ rest) (value ++ out)
  | text (c : Char) (rest out : Str) :
      (¬ ∃ p tail : Str, IsPlaceholder p ∧ c :: rest = p ++ tail) →
      Substituted values rest out →
      Substituted values (c :: rest) (c :: out)

/-- A text that `strconv.Unquote` leaves as it is: no backslash, no double
quote, no line break. -/
def isPlain (s : Str) : Bool := s.all fun c => c != '\\' && c != '"' && c != '\n'

/-- A text without U+FFFD, the character that stands in `emitText` for a
byte that is no UTF-8: no byte of such a text is in doubt. -/
def noReplacement (s : Str) : Bool := s.all fun c => c != Char.ofNat 0xFFFD

/-- The store file that holds the given rules, one line `name = command`
each. -/
def storeOf (rules : List (Str × Str)) : Str :=
  (rules.map fun r => fprintln (formatRule r.1 r.2)).flatten

/-- A rule name the portable format carries: not empty, no `=`, no white
space. -/
def portableName (name : Str) : Bool :=
  !name.isEmpty && name.all fun c => c != '=' && !isSpace c

/-- A command the portable format carries unchanged: one line, no white
space at either end, no `&`, and neither `:b` nor ` = ` inside. -/
def PortableCommand (command : Str) : Prop :=
  '\n' ∉ command ∧ trimSpace command = command ∧ '&' ∉ command ∧
    ¬ ":b".toList <:+: command ∧ ¬ " = ".toList <:+: command

/-- A line that lookup and listing read alike: it holds no `=`, or it starts
with the name the listing gives it (the trimmed text before its first `=`)
followed by ` = `. -/
def canonicalLine (line : Str) : Bool :=
  match splitFirstEq line with
  | none => true
  | some parts => hasPrefix line (rulePrefix (trimSpace parts.1))

/-- The elements of a path, the texts between its `/`; the element read so
far is kept reversed in `acc`. -/
def pathElements : Str → Str → List Str
  | [], acc => [acc.reverse]
  | c :: t, acc => if c = '/' then acc.reverse :: pathElements t [] else pathElements t (c :: acc)

/-- One element in `filepath.Clean` of a rooted path, the elements kept so
far listed from the last to the first: an empty element and `.` are
dropped, `..` removes the element before it (none at the root). -/
def cleanStep (kept : List Str) (element : Str) : List Str :=
  if element = [] ∨ element = ".".toList then kept
  else if element = "..".toList then kept.tail
  else element :: kept

/-- The directory `~/.local/bin` of the examples, `HOME` being
`/home/operator`: its elements from the last to the first. -/
def sampleBin : List Str := ["bin".toList, ".local".toList, "operator".toList, "home".toList]

/-- The path `filepath.Join(binDir, name)` of the examples, cleaned: its
elements from the last to the first. -/
def samplePath (name : Str) : List Str := (pathElements name []).foldl cleanStep sampleBin

/-- The entry of `~/.local/bin` a name leads to in the examples. -/
def sampleEntry (name : Str) : Option Str :=
  if (samplePath name).tail = sampleBin then (samplePath name).head? else none

/-- An environment for the examples, `HOME` being `/home/operator` and no
element of its path a symbolic link: the file system takes a name without
NUL, removes what it is asked to, and outside `~/.local/bin` refuses only
to write or remove the directories above it. -/
def sampleEnv : Env where
  user := "operator".toList
  logPath := "/home/operator/.local/share/abbtr/abbtr.log".toList
  nameOk := fun n => n.all fun c => c != Char.ofNat 0
  removable := fun _ => true
  entryOf := sampleEntry
  elsewhereWrite := fun n => !(samplePath n).isSuffixOf sampleBin
  elsewhereRemove := fun n => !(samplePath n).isSuffixOf sampleBin
  entryOf_fileName := by
    intro name h
    have hel : ∀ (t acc : Str), t.all (fun c => c != '/') = true →
        pathElements t acc = [acc.reverse ++ t] := by
      intro t
      induction t with
      | nil => intro acc _; simp [pathElements]
      | cons c t ih =>
        intro acc ht
        simp only [List.all_cons, Bool.and_eq_true, bne_iff_ne, ne_eq] at ht
        simp [pathElements, ht.1, ih (c :: acc) ht.2]
    simp only [isFileName, Bool.and_eq_true, Bool.not_eq_true', bne_iff_ne, ne_eq] at h
    obtain ⟨⟨⟨h1, h2⟩, h3⟩, h4⟩ := h
    have hne : name ≠ [] := by
      intro h0
      simp [h0] at h1
    have h2 : name ≠ ['.'] := h2
    have h3 : name ≠ ['.', '.'] := h3
    have hpath : samplePath name = name :: sampleBin := by
      simp [samplePath, hel name [] h4, cleanStep, hne, h2, h3]
    simp [sampleEntry, hpath]

/-- The entities that `html.EscapeString` writes, without their `&`, and
the characters they stand for. -/
def sampleEntities : List (String × Char) :=
  [("amp;", '&'), ("lt;", '<'), ("gt;", '>'), ("#34;", '"'), ("#39;", apostrophe)]

/-- A decoder for the examples: it knows the entities of `sampleEntities` and
leaves other text as it is; `skip` counts the characters of an entity still
to pass over. -/
def sampleDecode : Nat → Str → Str
  | _, [] => []
  | skip + 1, _ :: t => sampleDecode skip t
  | 0, c :: t =>
    if c = '&' then
      match sampleEntities.find? fun e => e.1.toList.isPrefixOf t with
      | some e => e.2 :: sampleDecode e.1.length t
      | none => c :: sampleDecode 0 t
    else c :: sampleDecode 0 t

/-- The decoder of the examples with its one fact. -/
def sampleHtml : HtmlUnescape where
  run := sampleDecode 0
  plain := by
    intro s
    induction s with
    | nil => intro _; rfl
    | cons c t ih =>
      intro h
      have hc : c ≠ '&' := fun hc => h (by simp [hc])
      have ht : '&' ∉ t := fun hm => h (List.mem_cons_of_mem _ hm)
      simp [sampleDecode, hc, ih ht]

/-- The empty store, an empty script directory, an operator who types
nothing. -/
def emptyWorld : World := { store := [], bin := [], stdin := [], asked := [] }

/-- The tokens of the placeholders found at the positions of a command. -/
def tokensAt (command : Str) : List Str :=
  (List.range command.length).filterMap fun i =>
    (matchHere bottleRe (command.drop i)).map fun r => r.1.headD []

/-- The value map of the example of the help text: `username` is `alice`. -/
def aliceValues : Str → Option Str :=
  fun token => if token = "username".toList then some "alice".toList else none

/-! # Proofs -/

/-! ## Lemmas on prefixes and on the search of a rule -/

theorem hasPrefix_iff (s p : Str) : hasPrefix s p = true ↔ p <+: s := by
  simp [hasPrefix, List.isPrefixOf_iff_prefix]

theorem hasPrefix_eq_false (s p : Str) : hasPrefix s p = false ↔ ¬ p <+: s := by
  rw [← hasPrefix_iff]; simp

theorem findRule_eq_none (lines : List Str) (name : Str)
    (h : ∀ line ∈ lines, ¬ rulePrefix name <+: line) : findRule lines name = none := by
  induction lines with
  | nil => rfl
  | cons l ls ih =>
    have h1 : hasPrefix l (rulePrefix name) = false :=
      (hasPrefix_eq_false _ _).2 (h l (List.mem_cons_self _ _))
    simp [findRule, h1, ih fun line hl => h line (List.mem_cons_of_mem _ hl)]

theorem findRule_isSome (lines : List Str) (name : Str)
    (h : ∃ line ∈ lines, rulePrefix name <+: line) : ∃ i, findRule lines name = some i := by
  induction lines with
  | nil => simp at h
  | cons l ls ih =>
    by_cases hl : hasPrefix l (rulePrefix name) = true
    · exact ⟨0, by simp [findRule, hl]⟩
    · obtain ⟨line, hmem, hp⟩ := h
      rcases List.mem_cons.1 hmem with rfl | hmem
      · exact absurd ((hasPrefix_iff _ _).2 hp) hl
      · obtain ⟨i, hi⟩ := ih ⟨line, hmem, hp⟩
        exact ⟨i + 1, by simp [findRule, hl, hi]⟩

/-! ## Lemmas on the matcher and on the pattern of the bottles -/

theorem matchHere_lits_iff (cs : List Char) (es : List Elem) (s : Str) (r : List Str × Str) :
    matchHere (cs.map Elem.lit ++ es) s = some r ↔ ∃ t, s = cs ++ t ∧ matchHere es t = some r := by
  induction cs generalizing s with
  | nil => simp
  | cons c cs ih =>
    cases s with
    | nil => simp [matchHere]
    | cons x t =>
      by_cases hx : x = c
      · subst hx
        simp [matchHere, ih]
      · have hx2 : ¬ c = x := fun h => hx h.symm
        simp [matchHere, hx, hx2]

theorem plusGreedy_sound {β : Type} (cls : Char → Bool) (k : Str → Option β) (s cap : Str) (r : β)
    (h : plusGreedy cls k s = some (cap, r)) :
    cap ≠ [] ∧ (∀ c ∈ cap, cls c = true) ∧ ∃ t, s = cap ++ t ∧ k t = some r := by
  induction s generalizing cap with
  | nil => simp [plusGreedy] at h
  | cons x t ih =>
    by_cases hx : cls x = true
    · simp only [plusGreedy, hx, if_true] at h
      cases hrec : plusGreedy cls k t with
      | some p =>
        obtain ⟨cap1, r1⟩ := p
        rw [hrec] at h
        simp only [Option.some.injEq, Prod.mk.injEq] at h
        obtain ⟨rfl, rfl⟩ := h
        obtain ⟨_, hall, t1, rfl, hk⟩ := ih cap1 hrec
        refine ⟨by simp, ?_, t1, by simp, hk⟩
        intro c hc
        rcases List.mem_cons.1 hc with rfl | hc
        · exact hx
        · exact hall c hc
      | none =>
        rw [hrec] at h
        cases hk : k t with
        | none => simp [hk] at h
        | some r1 =>
          simp only [hk, Option.map_some', Option.some.injEq, Prod.mk.injEq] at h
          obtain ⟨rfl, rfl⟩ := h
          exact ⟨by simp, by simpa using hx, t, by simp, hk⟩
    · simp [plusGreedy, hx] at h

theorem plusGreedy_complete {β : Type} (cls : Char → Bool) (k : Str → Option β) (cap t : Str) (r : β)
    (hne : cap ≠ []) (hall : ∀ c ∈ cap, cls c = true) (hk : k t = some r)
    (hstop : plusGreedy cls k t = none) :
    plusGreedy cls k (cap ++ t) = some (cap, r) := by
  induction cap with
  | nil => exact absurd rfl hne
  | cons x xs ih =>
    have hx : cls x = true := hall x (List.mem_cons_self _ _)
    by_cases hxs : xs = []
    · subst hxs
      simp [plusGreedy, hx, hstop, hk]
    · have := ih hxs fun c hc => hall c (List.mem_cons_of_mem _ hc)
      simp [plusGreedy, hx, this]

theorem matchHere_plus (cls : Char → Bool) (es : List Elem) (s : Str) :
    matchHere (Elem.plus cls :: es) s
      = (plusGreedy cls (matchHere es) s).map fun r => (r.1 :: r.2.1, r.2.2) := by
  cases s <;> rfl

theorem matchHere_lazyStar (cls : Char → Bool) (es : List Elem) (s : Str) :
    matchHere (Elem.lazyStar cls :: es) s
      = (starLazy cls (matchHere es) s).map fun r => (r.1 :: r.2.1, r.2.2) := by
  cases s <;> rfl

theorem matchHere_lits_only (cs : List Char) (s : Str) (r : List Str × Str) :
    matchHere (cs.map Elem.lit) s = some r ↔ r.1 = [] ∧ s = cs ++ r.2 := by
  have := matchHere_lits_iff cs [] s r
  rw [List.append_nil] at this
  rw [this]
  constructor
  · rintro ⟨t, rfl, h⟩
    simp only [matchHere, Option.some.injEq] at h
    subst h
    exact ⟨rfl, rfl⟩
  · rintro ⟨h1, h2⟩
    refine ⟨r.2, h2, ?_⟩
    obtain ⟨a, b⟩ := r
    simp only at h1
    subst h1
    rfl

theorem bottleRe_eq : bottleRe = "b%('".toList.map Elem.lit
    ++ (Elem.plus (fun c => c != apostrophe) :: ("')%b".toList.map Elem.lit)) := by
  simp [bottleRe, lits]

theorem matchHere_bottle_iff (s : Str) (caps : List Str) (rest : Str) :
    matchHere bottleRe s = some (caps, rest) ↔
      ∃ token : Str, token ≠ [] ∧ apostrophe ∉ token ∧
        s = "b%('".toList ++ token ++ "')%b".toList ++ rest ∧ caps = [token] := by
  rw [bottleRe_eq, matchHere_lits_iff]
  constructor
  · rintro ⟨t, rfl, h⟩
    rw [matchHere_plus, Option.map_eq_some'] at h
    obtain ⟨⟨cap, caps1, rest1⟩, hpg, heq⟩ := h
    simp only [Prod.mk.injEq] at heq
    obtain ⟨rfl, rfl⟩ := heq
    obtain ⟨hne, hall, t1, rfl, hk⟩ := plusGreedy_sound _ _ _ _ _ hpg
    rw [matchHere_lits_only] at hk
    obtain ⟨h1, h2⟩ := hk
    simp only at h1 h2
    subst h1 h2
    refine ⟨cap, hne, ?_, by simp, rfl⟩
    intro hmem
    simpa using hall _ hmem
  · rintro ⟨token, hne, hq, rfl, rfl⟩
    refine ⟨token ++ "')%b".toList ++ rest, by simp, ?_⟩
    rw [matchHere_plus]
    have hk : matchHere ("')%b".toList.map Elem.lit) ("')%b".toList ++ rest) = some ([], rest) := by
      rw [matchHere_lits_only]
      exact ⟨rfl, rfl⟩
    have hstop : plusGreedy (fun c => c != apostrophe)
        (matchHere ("')%b".toList.map Elem.lit)) ("')%b".toList ++ rest) = none := by
      simp [plusGreedy, apostrophe]
    have := plusGreedy_complete (fun c => c != apostrophe) _ token _ _ hne
      (fun c hc => by
        have : c ≠ apostrophe := fun h => hq (h ▸ hc)
        simpa using this) hk hstop
    rw [List.append_assoc, this]
    rfl

theorem matchHere_bottle_length (s : Str) (caps : List Str) (rest : Str)
    (h : matchHere bottleRe s = some (caps, rest)) : rest.length < s.length := by
  obtain ⟨token, _, _, rfl, _⟩ := (matchHere_bottle_iff s caps rest).1 h
  simp
  omega

theorem matchHere_bottle_none_iff (s : Str) :
    matchHere bottleRe s = none ↔ ¬ ∃ p tail : Str, IsPlaceholder p ∧ s = p ++ tail := by
  constructor
  · rintro h ⟨p, tail, ⟨token, hne, hq, rfl⟩, rfl⟩
    have := (matchHere_bottle_iff _ [token] tail).2 ⟨token, hne, hq, rfl, rfl⟩
    rw [h] at this
    cases this
  · intro h
    cases hm : matchHere bottleRe s with
    | none => rfl
    | some r =>
      obtain ⟨caps, rest⟩ := r
      obtain ⟨token, hne, hq, rfl, _⟩ := (matchHere_bottle_iff s caps rest).1 hm
      exact absurd ⟨_, rest, ⟨token, hne, hq, rfl⟩, rfl⟩ h

theorem processBottlesLoop_plain (values : Str → Option Str) (w : World) (s : Str) :
    ∀ fuel : Nat, (∀ p, IsPlaceholder p → ¬ p <:+: s) →
      processBottlesLoop values fuel s w = (s, w) := by
  induction s with
  | nil => intro fuel _; cases fuel <;> rfl
  | cons c t ih =>
    intro fuel h
    cases fuel with
    | zero => rfl
    | succ fuel =>
      have hnone : matchHere bottleRe (c :: t) = none := by
        rw [matchHere_bottle_none_iff]
        rintro ⟨p, tail, hp, heq⟩
        exact h p hp ⟨[], tail, by simp [heq]⟩
      have hrec := ih fuel fun p hp hin => h p hp (hin.trans (List.suffix_cons c t).isInfix)
      simp [processBottlesLoop, hnone, hrec]

theorem processBottlesLoop_bottle (values : Str → Option Str) (w : World) (fuel : Nat)
    (token value rest : Str) (hne : token ≠ []) (hq : apostrophe ∉ token)
    (hv : values token = some value) :
    processBottlesLoop values (fuel + 1) ("b%('".toList ++ token ++ "')%b".toList ++ rest) w
      = (value ++ (processBottlesLoop values fuel rest w).1,
          (processBottlesLoop values fuel rest w).2) := by
  have hm := (matchHere_bottle_iff ("b%('".toList ++ token ++ "')%b".toList ++ rest)
    [token] rest).2 ⟨token, hne, hq, rfl, rfl⟩
  generalize "b%('".toList ++ token ++ "')%b".toList ++ rest = s at hm
  cases s with
  | nil => simp [bottleRe, lits, matchHere] at hm
  | cons c t => simp only [processBottlesLoop, hm, List.headD_cons, hv]

theorem processBottlesLoop_text (values : Str → Option Str) (w : World) (fuel : Nat)
    (c : Char) (t : Str) (h : ¬ ∃ p tail : Str, IsPlaceholder p ∧ c :: t = p ++ tail) :
    processBottlesLoop values (fuel + 1) (c :: t) w
      = (c :: (processBottlesLoop values fuel t w).1, (processBottlesLoop values fuel t w).2) := by
  have hm := (matchHere_bottle_none_iff (c :: t)).2 h
  simp [processBottlesLoop, hm]

theorem processBottlesLoop_of_substituted (values : Str → Option Str) (w : World) (s out : Str)
    (h : Substituted values s out) :
    ∀ fuel : Nat, s.length ≤ fuel → processBottlesLoop values fuel s w = (out, w) := by
  induction h with
  | nil => intro fuel _; cases fuel <;> rfl
  | bottle token value rest out hne hq hv _ ih =>
    intro fuel hfuel
    cases fuel with
    | zero => simp at hfuel
    | succ fuel =>
      rw [processBottlesLoop_bottle values w fuel token value rest hne hq hv,
        ih fuel (by simp at hfuel; omega)]
  | text c rest out hno _ ih =>
    intro fuel hfuel
    cases fuel with
    | zero => simp at hfuel
    | succ fuel =>
      rw [processBottlesLoop_text values w fuel c rest hno, ih fuel (by simpa using hfuel)]

theorem substituted_processBottlesLoop (values : Str → Option Str) (w : World) :
    ∀ (fuel : Nat) (s : Str), s.length ≤ fuel →
      (∀ token : Str, token ≠ [] → apostrophe ∉ token →
        ("b%('".toList ++ token ++ "')%b".toList) <:+: s → ∃ value, values token = some value) →
      Substituted values s (processBottlesLoop values fuel s w).1 := by
  intro fuel
  induction fuel with
  | zero =>
    intro s hs _
    have : s = [] := List.length_eq_zero.1 (Nat.le_zero.1 hs)
    subst this
    exact Substituted.nil
  | succ fuel ih =>
    intro s hs hvals
    cases s with
    | nil => exact Substituted.nil
    | cons c t =>
      cases hm : matchHere bottleRe (c :: t) with
      | some r =>
        obtain ⟨caps, rest⟩ := r
        obtain ⟨token, hne, hq, heq, _⟩ := (matchHere_bottle_iff _ caps rest).1 hm
        have hlen := matchHere_bottle_length _ _ _ hm
        obtain ⟨value, hv⟩ := hvals token hne hq ⟨[], rest, by simp [heq]⟩
        rw [heq, processBottlesLoop_bottle values w fuel token value rest hne hq hv]
        refine Substituted.bottle token value rest _ hne hq hv (ih rest ?_ ?_)
        · simp at hs hlen; omega
        · intro tk h1 h2 hin
          refine hvals tk h1 h2 (hin.trans ?_)
          rw [heq]
          exact (List.suffix_append _ rest).isInfix
      | none =>
        have hno := (matchHere_bottle_none_iff (c :: t)).1 hm
        rw [processBottlesLoop_text values w fuel c t hno]
        refine Substituted.text c t _ hno (ih t (by simpa using hs) ?_)
        intro tk h1 h2 hin
        exact hvals tk h1 h2 (hin.trans (List.suffix_cons c t).isInfix)

/-! ## Lemmas on the prompt -/

theorem ask_store (w : World) (about : Str) : (ask w about).2.store = w.store := by
  unfold ask
  cases w.stdin <;> rfl

theorem ask_bin (w : World) (about : Str) : (ask w about).2.bin = w.bin := by
  unfold ask
  cases w.stdin <;> rfl

theorem ask_word (w : World) (about : Str) :
    (ask w about).1 = (w.stdin.head?.map fun line => (scanln line).1).getD [] := by
  unfold ask
  cases w.stdin <;> rfl

theorem ask_y (w : World) (about : Str) (h : w.stdin.head? = some "y".toList) :
    (ask w about).1 = "y".toList := by
  rw [ask_word, h]
  decide

set_option maxRecDepth 100000 in

/-- The response is the first word of the line typed: on the line ` y es`
the rule is overwritten, and `s` is left for the next read. -/
theorem createRule_first_word_confirms :
    (createRule sampleEnv "up".toList "id".toList
        { emptyWorld with store := "up = ls\n".toList, stdin := [" y es".toList] }).1
      = Outcome.done ∧
    (createRule sampleEnv "up".toList "id".toList
        { emptyWorld with store := "up = ls\n".toList, stdin := [" y es".toList] }).2.store
      = "up = id\n".toList ∧
    (createRule sampleEnv "up".toList "id".toList
        { emptyWorld with store := "up = ls\n".toList, stdin := [" y es".toList] }).2.stdin
      = ["s".toList] := by
  decide

theorem mem_tokensAt (command token : Str) (hne : token ≠ []) (hq : apostrophe ∉ token)
    (h : ("b%('".toList ++ token ++ "')%b".toList) <:+: command) : token ∈ tokensAt command := by
  obtain ⟨pre, post, rfl⟩ := h
  have hm := (matchHere_bottle_iff ("b%('".toList ++ token ++ "')%b".toList ++ post)
    [token] post).2 ⟨token, hne, hq, rfl, rfl⟩
  refine List.mem_filterMap.2 ⟨pre.length, List.mem_range.2 (by simp), ?_⟩
  have hd : (pre ++ ("b%('".toList ++ token ++ "')%b".toList) ++ post).drop pre.length
      = "b%('".toList ++ token ++ "')%b".toList ++ post := by
    simp
  rw [hd, hm]
  rfl

/-! ## Lemmas on reading and writing the store -/

theorem unquoteChar_plain (c : Char) (t : Str) (h1 : c ≠ '\\') (h2 : c ≠ '"') :
    unquoteChar (c :: t) = some (Emit.char c, t) := by
  simp [unquoteChar, h1, h2]

theorem unquoteLoop_plain (l : Str) (h : isPlain l = true) :
    ∀ fuel : Nat, l.length ≤ fuel → unquoteLoop fuel l = some (l.map Emit.char) := by
  induction l with
  | nil => intro fuel _; cases fuel <;> rfl
  | cons c t ih =>
    intro fuel hfuel
    cases fuel with
    | zero => simp at hfuel
    | succ fuel =>
      simp only [isPlain, List.all_cons, Bool.and_eq_true, bne_iff_ne, ne_eq] at h
      obtain ⟨⟨⟨h1, h2⟩, h3⟩, h4⟩ := h
      have := ih (by simpa [isPlain] using h4) fuel (by simpa using hfuel)
      simp [unquoteLoop, h3, unquoteChar_plain c t h1 h2, this]

theorem emitText_chars (l : Str) : emitText 0 (l.map Emit.char) = l := by
  induction l with
  | nil => rfl
  | cons c t ih => simp [emitText, ih]

theorem unquote_plain (l : Str) (h : isPlain l = true) : unquote l = some l := by
  rw [unquote, unquoteLoop_plain l h l.length (Nat.le_refl _)]
  simp [emitText_chars]

theorem write_out (w : BufWriter) (p : Str) : (w.write p).out = w.out ++ p := by
  unfold BufWriter.write
  simp only
  split
  · rfl
  · split
    · rfl
    · split <;> rfl

theorem writeLinesLoop_plain (lines : List Str) (h : ∀ l ∈ lines, isPlain l = true) :
    ∀ w : BufWriter, ∃ w1 : BufWriter, writeLinesLoop lines w = (true, w1) ∧
      w1.out = w.out ++ (lines.map fprintln).flatten := by
  induction lines with
  | nil => intro w; exact ⟨w, rfl, by simp⟩
  | cons l ls ih =>
    intro w
    obtain ⟨w1, h1, h2⟩ := ih (fun x hx => h x (List.mem_cons_of_mem _ hx)) (w.write (fprintln l))
    refine ⟨w1, ?_, ?_⟩
    · simp [writeLinesLoop, unquote_plain l (h l (List.mem_cons_self _ _)), h1]
    · rw [h2, write_out]
      simp

theorem writeLines_plain (lines : List Str) (h : ∀ l ∈ lines, isPlain l = true) :
    writeLines lines = (true, (lines.map fprintln).flatten) := by
  obtain ⟨w1, h1, h2⟩ := writeLinesLoop_plain lines h { out := [], flushed := 0, buffered := 0 }
  simp [writeLines, h1, h2]

theorem rawLines_line (l rest : Str) (h : '\n' ∉ l) :
    rawLines (l ++ '\n' :: rest) = l :: rawLines rest := by
  induction l with
  | nil => simp [rawLines]
  | cons c t ih =>
    have hc : c ≠ '\n' := fun hc => h (by simp [hc])
    have ht : '\n' ∉ t := fun ht => h (List.mem_cons_of_mem _ ht)
    simp [rawLines, hc, ih ht]

theorem rawLines_flatten (lines : List Str) (h : ∀ l ∈ lines, '\n' ∉ l) :
    rawLines (lines.map fprintln).flatten = lines := by
  induction lines with
  | nil => rfl
  | cons l ls ih =>
    have : ((l :: ls).map fprintln).flatten = l ++ '\n' :: (ls.map fprintln).flatten := by
      simp [fprintln]
    rw [this, rawLines_line l _ (h l (List.mem_cons_self _ _)),
      ih fun x hx => h x (List.mem_cons_of_mem _ hx)]

theorem not_newline_of_plain (l : Str) (h : isPlain l = true) : '\n' ∉ l := by
  intro hmem
  have := List.all_eq_true.1 h _ hmem
  simp at this

theorem readLines_flatten (lines : List Str) (h : ∀ l ∈ lines, '\n' ∉ l) :
    readLines (lines.map fprintln).flatten = lines.map dropCR := by
  rw [readLines, rawLines_flatten lines h]

theorem dropCR_initial (l : Str) : dropCR l <+: l := by
  unfold dropCR
  split
  · exact List.dropLast_prefix l
  · exact List.prefix_refl l

theorem prefix_dropCR (p l : Str) (hp : p.getLast? = some ' ') (h : p <+: l) : p <+: dropCR l := by
  unfold dropCR
  split
  · rename_i hl
    obtain ⟨r, rfl⟩ := h
    rcases List.eq_nil_or_concat r with rfl | ⟨r1, x, rfl⟩
    · rw [List.append_nil] at hl
      rw [hp] at hl
      cases hl
    · rw [List.concat_eq_append, ← List.append_assoc, List.dropLast_concat]
      exact List.prefix_append _ _
  · exact h

theorem rulePrefix_getLast (name : Str) : (rulePrefix name).getLast? = some ' ' := by
  simp [rulePrefix, List.getLast?_append]

theorem hasPrefix_dropCR (l name : Str) :
    hasPrefix (dropCR l) (rulePrefix name) = hasPrefix l (rulePrefix name) := by
  rw [Bool.eq_iff_iff, hasPrefix_iff, hasPrefix_iff]
  exact ⟨fun h => h.trans (dropCR_initial l), prefix_dropCR _ _ (rulePrefix_getLast name)⟩

theorem getLast_of_trimSpace (s : Str) (h : trimSpace s = s) (c : Char) (hc : isSpace c = true) :
    s.getLast? ≠ some c := by
  intro hlast
  have hrev : s.reverse = (s.dropWhile isSpace).reverse.dropWhile isSpace := by
    have := congrArg List.reverse h
    simpa [trimSpace] using this.symm
  cases hs : s.reverse with
  | nil =>
    rw [List.reverse_eq_nil_iff] at hs
    subst hs
    simp at hlast
  | cons x xs =>
    have hx : x = c := by
      have := @List.getLast?_eq_head?_reverse _ s
      rw [hs, hlast] at this
      simpa using this.symm
    have hne : (s.dropWhile isSpace).reverse.dropWhile isSpace ≠ [] := by
      rw [← hrev, hs]; simp
    have := List.head_dropWhile_not isSpace _ hne
    have hhead : ((s.dropWhile isSpace).reverse.dropWhile isSpace).head hne = x := by
      have h2 : (s.dropWhile isSpace).reverse.dropWhile isSpace = x :: xs := by rw [← hrev, hs]
      simp [h2]
    rw [hhead, hx, hc] at this
    cases this

theorem isPlain_formatRule (name command : Str) (h1 : isPlain name = true)
    (h2 : isPlain command = true) : isPlain (formatRule name command) = true := by
  simp only [isPlain, formatRule, List.all_append, Bool.and_eq_true] at *
  exact ⟨⟨h1, by decide⟩, h2⟩

theorem dropCR_formatRule (name command : Str) (h : trimSpace command = command) :
    dropCR (formatRule name command) = formatRule name command := by
  unfold dropCR
  split
  · rename_i hl
    exfalso
    rcases List.eq_nil_or_concat command with rfl | ⟨r1, x, rfl⟩
    · simp [formatRule, List.getLast?_append] at hl
    · have hf : formatRule name (r1.concat x) = (name ++ " = ".toList ++ r1) ++ [x] := by
        simp [formatRule]
      rw [hf, List.getLast?_concat] at hl
      have hx : (r1.concat x).getLast? = some '\r' := by
        rw [List.concat_eq_append, List.getLast?_concat]
        exact hl
      exact getLast_of_trimSpace _ h '\r' (by decide) hx
  · rfl

theorem getCommand_formatRule (name command : Str) (h : trimSpace command = command) :
    trimSpace (trimPrefix (formatRule name command) (rulePrefix name)) = command := by
  have hp : hasPrefix (formatRule name command) (rulePrefix name) = true :=
    (hasPrefix_iff _ _).2 ⟨command, rfl⟩
  have hd : (formatRule name command).drop (rulePrefix name).length = command := by
    simp [formatRule, rulePrefix]
  rw [trimPrefix, if_pos hp, hd, h]

theorem find_after_append (lines : List Str) (name new : Str)
    (hnone : findRule lines name = none) (hnew : hasPrefix new (rulePrefix name) = true) :
    ((lines ++ [new]).map dropCR).find? (fun line => hasPrefix line (rulePrefix name))
      = some (dropCR new) := by
  induction lines with
  | nil => simp [hasPrefix_dropCR, hnew]
  | cons l ls ih =>
    by_cases hl : hasPrefix l (rulePrefix name) = true
    · simp [findRule, hl] at hnone
    · have hrest : findRule ls name = none := by
        simpa [findRule, hl] using hnone
      simpa [hasPrefix_dropCR, hl] using ih hrest

theorem find_after_set (lines : List Str) (name new : Str) (i : Nat)
    (hsome : findRule lines name = some i) (hnew : hasPrefix new (rulePrefix name) = true) :
    ((lines.set i new).map dropCR).find? (fun line => hasPrefix line (rulePrefix name))
      = some (dropCR new) := by
  induction lines generalizing i with
  | nil => simp [findRule] at hsome
  | cons l ls ih =>
    by_cases hl : hasPrefix l (rulePrefix name) = true
    · have : i = 0 := by simpa [findRule, hl] using hsome.symm
      subst this
      simp [hasPrefix_dropCR, hnew]
    · simp only [findRule, hl, Bool.false_eq_true, if_false, Option.map_eq_some'] at hsome
      obtain ⟨j, hj, rfl⟩ := hsome
      simpa [hasPrefix_dropCR, hl] using ih j hj

theorem mem_set_plain (lines : List Str) (i : Nat) (new : Str)
    (h : ∀ l ∈ lines, isPlain l = true) (hnew : isPlain new = true) :
    ∀ l ∈ lines.set i new, isPlain l = true := by
  intro l hl
  rcases List.mem_or_eq_of_mem_set hl with h1 | h1
  · exact h l h1
  · exact h1 ▸ hnew

theorem getCommand_after_write (lines1 : List Str) (name command : Str)
    (hplain : ∀ l ∈ lines1, isPlain l = true) (htrim : trimSpace command = command)
    (hfind : (lines1.map dropCR).find? (fun line => hasPrefix line (rulePrefix name))
      = some (dropCR (formatRule name command))) :
    getCommand (lines1.map fprintln).flatten name = some command := by
  rw [getCommand, readLines_flatten lines1 fun l hl => not_newline_of_plain l (hplain l hl), hfind,
    dropCR_formatRule name command htrim]
  simp [getCommand_formatRule name command htrim]

/-! ## Lemmas on the script directory -/

theorem mem_putFile_file (name content n : Str) (bin : List (Str × Node)) :
    (∃ c, (n, Node.file c) ∈ putFile name content bin) ↔
      n = name ∨ ∃ c, (n, Node.file c) ∈ bin := by
  induction bin with
  | nil => simp [putFile]
  | cons e rest ih =>
    obtain ⟨m, node⟩ := e
    by_cases hm : m = name
    · subst hm
      simp only [putFile, if_true, List.mem_cons, Prod.mk.injEq]
      constructor
      · rintro ⟨c, h | h⟩
        · exact Or.inl h.1
        · exact Or.inr ⟨c, Or.inr h⟩
      · rintro (h | ⟨c, h | h⟩)
        · exact ⟨content, Or.inl ⟨h, rfl⟩⟩
        · exact ⟨content, Or.inl ⟨h.1, rfl⟩⟩
        · exact ⟨c, Or.inr h⟩
    · simp only [putFile, hm, if_false, List.mem_cons, Prod.mk.injEq]
      constructor
      · rintro ⟨c, h | h⟩
        · exact Or.inr ⟨c, Or.inl h⟩
        · rcases ih.1 ⟨c, h⟩ with h1 | ⟨c1, h1⟩
          · exact Or.inl h1
          · exact Or.inr ⟨c1, Or.inr h1⟩
      · rintro (h | ⟨c, h | h⟩)
        · obtain ⟨c1, h1⟩ := ih.2 (Or.inl h)
          exact ⟨c1, Or.inr h1⟩
        · exact ⟨c, Or.inl h⟩
        · obtain ⟨c1, h1⟩ := ih.2 (Or.inr ⟨c, h⟩)
          exact ⟨c1, Or.inr h1⟩

theorem lookupNode_cons_ne (name m : Str) (node : Node) (rest : List (Str × Node))
    (h : m ≠ name) : lookupNode name ((m, node) :: rest) = lookupNode name rest := by
  unfold lookupNode
  rw [List.find?_cons_of_neg]
  simpa using h

theorem lookupNode_cons_eq (name : Str) (node : Node) (rest : List (Str × Node)) :
    lookupNode name ((name, node) :: rest) = some node := by
  unfold lookupNode
  rw [List.find?_cons_of_pos]
  · rfl
  · simp

theorem mem_putFile_dir (name content n : Str) (b : Bool) (bin : List (Str × Node))
    (h : ∀ d, lookupNode name bin ≠ some (Node.dir d)) :
    (n, Node.dir b) ∈ putFile name content bin ↔ (n, Node.dir b) ∈ bin := by
  induction bin with
  | nil => simp [putFile]
  | cons e rest ih =>
    obtain ⟨m, node⟩ := e
    by_cases hm : m = name
    · subst hm
      have hnode : ∀ d, node ≠ Node.dir d := by
        intro d hd
        exact h d (by rw [lookupNode_cons_eq, hd])
      simp only [putFile, if_true, List.mem_cons, Prod.mk.injEq]
      constructor
      · rintro (h1 | h1)
        · cases h1.2
        · exact Or.inr h1
      · rintro (h1 | h1)
        · exact absurd h1.2.symm (hnode b)
        · exact Or.inr h1
    · have hrest : ∀ d, lookupNode name rest ≠ some (Node.dir d) := by
        intro d hd
        refine h d ?_
        rw [lookupNode_cons_ne name m node rest hm]
        exact hd
      simp only [putFile, hm, if_false, List.mem_cons]
      rw [ih hrest]

theorem mem_removeOrphans_file (env : Env) (rules : List Str) (bin : List (Str × Node))
    (h : (removeOrphans env rules bin).2 = []) (n c : Str) :
    (n, Node.file c) ∈ (removeOrphans env rules bin).1 ↔ (n, Node.file c) ∈ bin ∧ n ∈ rules := by
  simp only [removeOrphans, List.map_eq_nil_iff, List.filter_eq_nil_iff] at h
  have h1 := h (n, Node.file c)
  simp only [removeOrphans, List.mem_filter]
  constructor
  · rintro ⟨hm, hr⟩
    refine ⟨hm, ?_⟩
    have h2 := h1 hm
    by_contra hn
    simp [hn] at hr h2
    simp [h2] at hr
  · rintro ⟨hm, hr⟩
    exact ⟨hm, by simp [hr]⟩

theorem mem_removeOrphans_dir (env : Env) (rules : List Str) (bin : List (Str × Node)) (n : Str)
    (b : Bool) : (n, Node.dir b) ∈ (removeOrphans env rules bin).1 ↔ (n, Node.dir b) ∈ bin := by
  simp [removeOrphans, List.mem_filter]

theorem syncRule_ok (env : Env) (store : Str) (st : List (Str × Node) × List Str × List Str)
    (rule : Str) (hname : isFileName rule = true)
    (h : (syncRule env store st rule).2 = ([], [])) :
    st.2 = ([], []) ∧ ∃ command,
      (syncRule env store st rule).1 = putFile rule command st.1 ∧
        ∀ d, lookupNode rule st.1 ≠ some (Node.dir d) := by
  obtain ⟨bin, l1, l2⟩ := st
  unfold syncRule at h ⊢
  cases hg : getCommand store rule with
  | none => simp [hg] at h
  | some command =>
    simp only [hg] at h ⊢
    unfold writeFile at h ⊢
    rw [env.entryOf_fileName rule hname] at h ⊢
    by_cases hok : env.nameOk rule = true
    · simp only [hok, if_true] at h ⊢
      cases hl : lookupNode rule bin with
      | none =>
        simp only [hl] at h ⊢
        exact ⟨h, _, rfl, fun d hd => by cases hd⟩
      | some node =>
        cases node with
        | file c =>
          simp only [hl] at h ⊢
          exact ⟨h, _, rfl, fun d hd => by cases hd⟩
        | dir d =>
          simp [hl] at h
    · simp [hok] at h

theorem sync_fold (env : Env) (store : Str) (rules : List Str)
    (hnames : ∀ r ∈ rules, isFileName r = true) :
    ∀ st : List (Str × Node) × List Str × List Str,
      (rules.foldl (syncRule env store) st).2 = ([], []) →
        st.2 = ([], []) ∧
        (∀ n, (∃ c, (n, Node.file c) ∈ (rules.foldl (syncRule env store) st).1) ↔
          ((∃ c, (n, Node.file c) ∈ st.1) ∨ n ∈ rules)) ∧
        (∀ n b, (n, Node.dir b) ∈ (rules.foldl (syncRule env store) st).1 ↔
          (n, Node.dir b) ∈ st.1) := by
  induction rules with
  | nil => intro st h; exact ⟨h, by simp, by simp⟩
  | cons r rs ih =>
    intro st h
    rw [List.foldl_cons] at h ⊢
    obtain ⟨h0, h1, h2⟩ := ih (fun x hx => hnames x (List.mem_cons_of_mem _ hx)) _ h
    obtain ⟨hst, command, hput, hdir⟩ :=
      syncRule_ok env store st r (hnames r (List.mem_cons_self _ _)) h0
    refine ⟨hst, fun n => ?_, fun n b => ?_⟩
    · rw [h1 n, hput, mem_putFile_file]
      simp only [List.mem_cons]
      tauto
    · rw [h2 n b, hput, mem_putFile_dir r command n b st.1 hdir]

/-- A rule name that is no file name: on the store `../x = ls`,
`syncRulesWithScripts` writes the script `~/.local/x`, reports nothing, and
the script directory holds no script for the rule. -/
theorem sync_rule_name_outside :
    getAllRules "../x = ls\n".toList = ["../x".toList] ∧
      syncRulesWithScripts sampleEnv { emptyWorld with store := "../x = ls\n".toList }
        = ({ emptyWorld with store := "../x = ls\n".toList }, [], [], []) := by
  decide

/-! ## Lemmas on the portable format -/

theorem starLazy_complete {β : Type} (cls : Char → Bool) (k : Str → Option β) (xs tail : Str)
    (r : β) (hall : ∀ x ∈ xs, cls x = true) (hk : k tail = some r)
    (hearly : ∀ suf : Str, suf ≠ [] → suf <:+ xs → k (suf ++ tail) = none) :
    starLazy cls k (xs ++ tail) = some (xs, r) := by
  induction xs with
  | nil =>
    cases tail with
    | nil => simp [starLazy, hk]
    | cons y t => simp [starLazy, hk]
  | cons x xs ih =>
    have h0 : k (x :: (xs ++ tail)) = none := hearly (x :: xs) (by simp) (List.suffix_refl _)
    have hrec := ih (fun y hy => hall y (List.mem_cons_of_mem _ hy))
      (fun suf hne hsuf => hearly suf hne (hsuf.trans (List.suffix_cons x xs)))
    simp [starLazy, h0, hall x (List.mem_cons_self _ _), hrec]

theorem ruleRe_eq : ruleRe = "b:".toList.map Elem.lit
    ++ (Elem.plus (fun c => c != '=') :: (" = ".toList.map Elem.lit
      ++ (Elem.lazyStar (fun c => c != '\n') :: ":b".toList.map Elem.lit))) := by
  simp [ruleRe, lits]

theorem colonB_early (command suf rest : Str) (h : ¬ ":b".toList <:+: command) (hne : suf ≠ [])
    (hsuf : suf <:+ command) :
    matchHere (":b".toList.map Elem.lit) (suf ++ (":b".toList ++ rest)) = none := by
  cases hm : matchHere (":b".toList.map Elem.lit) (suf ++ (":b".toList ++ rest)) with
  | none => rfl
  | some r =>
    exfalso
    obtain ⟨_, h2⟩ := (matchHere_lits_only _ _ _).1 hm
    cases suf with
    | nil => exact hne rfl
    | cons a suf1 =>
      cases suf1 with
      | nil => simp at h2
      | cons b suf2 =>
        simp at h2
        obtain ⟨ha, hb, _⟩ := h2
        subst ha hb
        exact h ((List.prefix_append [':', 'b'] suf2).isInfix.trans hsuf.isInfix)

theorem matchHere_rule (name command rest : Str) (hne : name ≠ [])
    (hname : ∀ c ∈ name, c ≠ '=') (hline : '\n' ∉ command)
    (hcolon : ¬ ":b".toList <:+: command) :
    matchHere ruleRe ("b:".toList ++ formatRule name command ++ ":b".toList ++ rest)
      = some ([name, command], rest) := by
  have hlazy : starLazy (fun c => c != '\n') (matchHere (":b".toList.map Elem.lit))
      (command ++ (":b".toList ++ rest)) = some (command, ([], rest)) := by
    refine starLazy_complete _ _ command _ _ (fun x hx => ?_) ?_ ?_
    · have : x ≠ '\n' := fun h => hline (h ▸ hx)
      simpa using this
    · rw [matchHere_lits_only]
      exact ⟨rfl, rfl⟩
    · intro suf hne1 hsuf
      exact colonB_early command suf rest hcolon hne1 hsuf
  have hk : matchHere (" = ".toList.map Elem.lit
      ++ (Elem.lazyStar (fun c => c != '\n') :: ":b".toList.map Elem.lit))
      (" = ".toList ++ (command ++ (":b".toList ++ rest))) = some ([command], rest) := by
    rw [matchHere_lits_iff]
    refine ⟨_, rfl, ?_⟩
    rw [matchHere_lazyStar, hlazy]
    rfl
  have hstop : plusGreedy (fun c => c != '=') (matchHere (" = ".toList.map Elem.lit
      ++ (Elem.lazyStar (fun c => c != '\n') :: ":b".toList.map Elem.lit)))
      (" = ".toList ++ (command ++ (":b".toList ++ rest))) = none := by
    simp [plusGreedy, matchHere]
  have hplus := plusGreedy_complete (fun c => c != '=') _ name _ _ hne
    (fun c hc => by simpa using hname c hc) hk hstop
  rw [ruleRe_eq, matchHere_lits_iff]
  refine ⟨name ++ (" = ".toList ++ (command ++ (":b".toList ++ rest))), ?_, ?_⟩
  · simp [formatRule]
  · rw [matchHere_plus, hplus]
    rfl

theorem findAllRules_match (fuel : Nat) (s : Str) (caps : List Str) (rest : Str)
    (hm : matchHere ruleRe s = some (caps, rest)) :
    findAllRules (fuel + 1) s = caps :: findAllRules fuel rest := by
  cases s with
  | nil => simp [ruleRe, lits, matchHere] at hm
  | cons c t => simp only [findAllRules, hm]

theorem findAllRules_skip (fuel : Nat) (c : Char) (t : Str) (hc : c ≠ 'b') :
    findAllRules (fuel + 1) (c :: t) = findAllRules fuel t := by
  have hm : matchHere ruleRe (c :: t) = none := by
    simp [ruleRe, lits, matchHere, hc]
  simp only [findAllRules, hm]

/-! ## The fuel of the loops is enough -/

theorem hexEscape_length (n : Nat) (rune : Bool) (s rest : Str) (r : Emit)
    (h : hexEscape n rune s = some (r, rest)) : rest.length ≤ s.length := by
  unfold hexEscape at h
  split at h
  · cases h
  · split at h
    · cases h
    · split at h
      · split at h
        · simp only [Option.some.injEq, Prod.mk.injEq] at h
          obtain ⟨_, rfl⟩ := h
          simp
        · cases h
      · simp only [Option.some.injEq, Prod.mk.injEq] at h
        obtain ⟨_, rfl⟩ := h
        simp

theorem octalEscape_length (c : Char) (s rest : Str) (r : Emit)
    (h : octalEscape c s = some (r, rest)) : rest.length ≤ s.length := by
  unfold octalEscape at h
  split at h
  · split at h
    · split at h
      · simp only [Option.some.injEq, Prod.mk.injEq] at h
        obtain ⟨_, rfl⟩ := h
        simp only [List.length_cons]
        omega
      · cases h
    · cases h
  · cases h

theorem unquoteEscape_length (s rest : Str) (r : Emit) (h : unquoteEscape s = some (r, rest)) :
    rest.length < s.length := by
  cases s with
  | nil => cases h
  | cons c t =>
    simp only [unquoteEscape] at h
    simp only [List.length_cons]
    split at h
    · simp only [Option.some.injEq, Prod.mk.injEq] at h
      obtain ⟨_, rfl⟩ := h
      omega
    · split at h
      · have := hexEscape_length _ _ _ _ _ h
        omega
      · split at h
        · have := hexEscape_length _ _ _ _ _ h
          omega
        · split at h
          · have := hexEscape_length _ _ _ _ _ h
            omega
          · have := octalEscape_length _ _ _ _ h
            omega

theorem unquoteChar_length (s rest : Str) (r : Emit) (h : unquoteChar s = some (r, rest)) :
    rest.length < s.length := by
  cases s with
  | nil => cases h
  | cons c t =>
    simp only [unquoteChar] at h
    split at h
    · cases h
    · split at h
      · have := unquoteEscape_length t rest r h
        simp only [List.length_cons]
        omega
      · simp only [Option.some.injEq, Prod.mk.injEq] at h
        obtain ⟨_, rfl⟩ := h
        simp

theorem unquoteLoop_fuel (n : Nat) :
    ∀ (m : Nat) (l : Str), l.length ≤ n → l.length ≤ m → unquoteLoop n l = unquoteLoop m l := by
  induction n with
  | zero =>
    intro m l hn _
    have : l = [] := List.length_eq_zero.1 (Nat.le_zero.1 hn)
    subst this
    cases m <;> rfl
  | succ n ih =>
    intro m l hn hm
    cases l with
    | nil => cases m <;> rfl
    | cons c t =>
      cases m with
      | zero => simp at hm
      | succ m =>
        simp only [unquoteLoop]
        split
        · rfl
        · cases hu : unquoteChar (c :: t) with
          | none => rfl
          | some p =>
            obtain ⟨r, rest⟩ := p
            have hlen := unquoteChar_length _ _ _ hu
            simp only [List.length_cons] at hlen hn hm
            simp only
            rw [ih m rest (by omega) (by omega)]

theorem processBottlesLoop_fuel (values : Str → Option Str) (n : Nat) :
    ∀ (m : Nat) (s : Str) (w : World), s.length ≤ n → s.length ≤ m →
      processBottlesLoop values n s w = processBottlesLoop values m s w := by
  induction n with
  | zero =>
    intro m s w hn _
    have : s = [] := List.length_eq_zero.1 (Nat.le_zero.1 hn)
    subst this
    cases m <;> rfl
  | succ n ih =>
    intro m s w hn hm
    cases s with
    | nil => cases m <;> rfl
    | cons c t =>
      cases m with
      | zero => simp at hm
      | succ m =>
        simp only [processBottlesLoop]
        cases hmt : matchHere bottleRe (c :: t) with
        | none =>
          simp only [List.length_cons] at hn hm
          simp only
          rw [ih m t w (by omega) (by omega)]
        | some p =>
          obtain ⟨caps, rest⟩ := p
          have hlen := matchHere_bottle_length _ _ _ hmt
          simp only [List.length_cons] at hlen hn hm
          simp only
          rw [ih m rest _ (by omega) (by omega)]

theorem plusGreedy_length {β : Type} (cls : Char → Bool) (k : Str → Option β) (len : β → Nat)
    (hk : ∀ t r, k t = some r → len r ≤ t.length) :
    ∀ (s cap : Str) (r : β), plusGreedy cls k s = some (cap, r) → len r < s.length := by
  intro s cap r h
  obtain ⟨hne, _, t, rfl, hkt⟩ := plusGreedy_sound cls k s cap r h
  have := hk t r hkt
  have hpos : 0 < cap.length := List.length_pos.2 hne
  simp only [List.length_append]
  omega

theorem starLazy_length {β : Type} (cls : Char → Bool) (k : Str → Option β) (len : β → Nat)
    (hk : ∀ t r, k t = some r → len r ≤ t.length) :
    ∀ (s cap : Str) (r : β), starLazy cls k s = some (cap, r) → len r ≤ s.length := by
  intro s
  induction s with
  | nil =>
    intro cap r h
    simp only [starLazy, Option.map_eq_some', Prod.mk.injEq] at h
    obtain ⟨r1, h1, _, rfl⟩ := h
    exact hk [] r1 h1
  | cons x t ih =>
    intro cap r h
    simp only [starLazy] at h
    cases hkx : k (x :: t) with
    | some r1 =>
      simp only [hkx, Option.some.injEq, Prod.mk.injEq] at h
      obtain ⟨_, rfl⟩ := h
      exact hk _ _ hkx
    | none =>
      simp only [hkx] at h
      split at h
      · simp only [Option.map_eq_some', Prod.mk.injEq] at h
        obtain ⟨⟨cap1, r1⟩, h1, _, rfl⟩ := h
        have := ih cap1 r1 h1
        simp only [List.length_cons]
        omega
      · cases h

theorem matchHere_length (es : List Elem) :
    ∀ (s : Str) (r : List Str × Str), matchHere es s = some r → r.2.length ≤ s.length := by
  induction es with
  | nil =>
    intro s r h
    simp only [matchHere, Option.some.injEq] at h
    subst h
    exact Nat.le_refl _
  | cons e es ih =>
    intro s r h
    cases e with
    | lit c =>
      cases s with
      | nil => simp [matchHere] at h
      | cons x t =>
        simp only [matchHere] at h
        split at h
        · have := ih t r h
          simp only [List.length_cons]
          omega
        · cases h
    | plus cls =>
      rw [matchHere_plus, Option.map_eq_some'] at h
      obtain ⟨⟨cap, r1⟩, h1, rfl⟩ := h
      exact Nat.le_of_lt (plusGreedy_length cls (matchHere es) (fun r => r.2.length) ih s cap r1 h1)
    | lazyStar cls =>
      rw [matchHere_lazyStar, Option.map_eq_some'] at h
      obtain ⟨⟨cap, r1⟩, h1, rfl⟩ := h
      exact starLazy_length cls (matchHere es) (fun r => r.2.length) ih s cap r1 h1

theorem matchHere_rule_length (s : Str) (r : List Str × Str) (h : matchHere ruleRe s = some r) :
    r.2.length < s.length := by
  rw [ruleRe_eq, matchHere_lits_iff] at h
  obtain ⟨t, rfl, ht⟩ := h
  have := matchHere_length _ t r ht
  simp only [List.length_append]
  have : 0 < "b:".toList.length := by decide
  omega

theorem findAllRules_fuel (n : Nat) :
    ∀ (m : Nat) (s : Str), s.length ≤ n → s.length ≤ m →
      findAllRules n s = findAllRules m s := by
  induction n with
  | zero =>
    intro m s hn _
    have : s = [] := List.length_eq_zero.1 (Nat.le_zero.1 hn)
    subst this
    cases m <;> rfl
  | succ n ih =>
    intro m s hn hm
    cases s with
    | nil => cases m <;> rfl
    | cons c t =>
      cases m with
      | zero => simp at hm
      | succ m =>
        simp only [findAllRules]
        cases hmt : matchHere ruleRe (c :: t) with
        | none =>
          simp only [List.length_cons] at hn hm
          simp only
          rw [ih m t (by omega) (by omega)]
        | some p =>
          obtain ⟨caps, rest⟩ := p
          have hlen := matchHere_rule_length _ _ hmt
          simp only [List.length_cons] at hlen hn hm
          simp only
          rw [ih m rest (by omega) (by omega)]

theorem portableName_ne_nil (n : Str) (h : portableName n = true) : n ≠ [] := by
  intro hn
  subst hn
  simp [portableName] at h

theorem portableName_chars (n : Str) (h : portableName n = true) :
    ∀ c ∈ n, c ≠ '=' ∧ isSpace c = false := by
  intro c hc
  simp only [portableName, Bool.and_eq_true, List.all_eq_true] at h
  simpa using h.2 c hc

theorem portableName_no_blank (n : Str) (h : portableName n = true) : ∀ c ∈ n, c ≠ ' ' := by
  intro c hc hcs
  have := (portableName_chars n h c hc).2
  rw [hcs] at this
  revert this
  decide

theorem portableName_no_newline (n : Str) (h : portableName n = true) : '\n' ∉ n := by
  intro hc
  have := (portableName_chars n h _ hc).2
  revert this
  decide

theorem dropWhile_of_head (p : Char → Bool) (l : Str) (h : ∀ c, l.head? = some c → p c = false) :
    l.dropWhile p = l := by
  cases l with
  | nil => rfl
  | cons x t => simp [List.dropWhile, h x rfl]

theorem trimSpace_of_nonspace (n : Str) (h : ∀ c ∈ n, isSpace c = false) : trimSpace n = n := by
  have h1 : n.dropWhile isSpace = n :=
    dropWhile_of_head _ _ fun c hc => h c (List.mem_of_mem_head? hc)
  have h2 : n.reverse.dropWhile isSpace = n.reverse :=
    dropWhile_of_head _ _ fun c hc => h c (List.mem_reverse.1 (List.mem_of_mem_head? hc))
  rw [trimSpace, h1, h2, List.reverse_reverse]

theorem trimSpace_append_blank (n : Str) (h : ∀ c ∈ n, isSpace c = false) :
    trimSpace (n ++ [' ']) = n := by
  cases n with
  | nil => decide
  | cons x t =>
    have hx : isSpace x = false := h x (List.mem_cons_self _ _)
    have h1 : (x :: t ++ [' ']).dropWhile isSpace = x :: t ++ [' '] := by
      simp [List.dropWhile, hx]
    have hb : isSpace ' ' = true := by decide
    have h2 : (x :: t).reverse.dropWhile isSpace = (x :: t).reverse :=
      dropWhile_of_head _ _ fun c hc => h c (List.mem_reverse.1 (List.mem_of_mem_head? hc))
    rw [trimSpace, h1, List.reverse_append, List.reverse_singleton, List.singleton_append,
      List.dropWhile_cons_of_pos hb, h2, List.reverse_reverse]

theorem trimSpace_blank_cons (c : Str) : trimSpace (' ' :: c) = trimSpace c := by
  have hb : isSpace ' ' = true := by decide
  rw [trimSpace, trimSpace, List.dropWhile_cons_of_pos hb]

theorem splitFirstEq_append (n rest : Str) (h : ∀ c ∈ n, c ≠ '=') :
    splitFirstEq (n ++ '=' :: rest) = some (n, rest) := by
  induction n with
  | nil => simp [splitFirstEq]
  | cons x t ih =>
    have hx : x ≠ '=' := h x (List.mem_cons_self _ _)
    simp [splitFirstEq, hx, ih fun c hc => h c (List.mem_cons_of_mem _ hc)]

theorem splitFirstEq_formatRule (n c : Str) (h : portableName n = true) :
    splitFirstEq (formatRule n c) = some (n ++ [' '], ' ' :: c) := by
  have : formatRule n c = (n ++ [' ']) ++ '=' :: (' ' :: c) := by simp [formatRule]
  rw [this, splitFirstEq_append]
  intro x hx
  rcases List.mem_append.1 hx with h1 | h1
  · exact (portableName_chars n h x h1).1
  · rw [List.mem_singleton.1 h1]; decide

theorem newline_not_mem_formatRule (n c : Str) (hn : portableName n = true) (hc : '\n' ∉ c) :
    '\n' ∉ formatRule n c := by
  intro h
  simp only [formatRule, List.mem_append] at h
  rcases h with (h | h) | h
  · exact portableName_no_newline n hn h
  · revert h; decide
  · exact hc h

theorem storeOf_eq (rules : List (Str × Str)) :
    storeOf rules = ((rules.map fun r => formatRule r.1 r.2).map fprintln).flatten := by
  simp [storeOf, List.map_map, Function.comp_def]

theorem readLines_storeOf (rules : List (Str × Str))
    (hn : ∀ r ∈ rules, portableName r.1 = true) (hc : ∀ r ∈ rules, PortableCommand r.2) :
    readLines (storeOf rules) = rules.map fun r => formatRule r.1 r.2 := by
  rw [storeOf_eq, readLines_flatten]
  · rw [List.map_map]
    refine List.map_congr_left fun r hr => ?_
    exact dropCR_formatRule r.1 r.2 (hc r hr).2.1
  · intro l hl
    obtain ⟨r, hr, rfl⟩ := List.mem_map.1 hl
    exact newline_not_mem_formatRule r.1 r.2 (hn r hr) (hc r hr).1

theorem prefix_name_eq (n m c : Str) (hn : ∀ x ∈ n, x ≠ ' ') (hm : ∀ x ∈ m, x ≠ ' ')
    (h : rulePrefix n <+: formatRule m c) : n = m := by
  induction n generalizing m with
  | nil =>
    cases m with
    | nil => rfl
    | cons b m1 =>
      exfalso
      have h1 : ' ' :: "= ".toList <+: b :: (m1 ++ " = ".toList ++ c) := by
        simpa [rulePrefix, formatRule] using h
      exact hm b (List.mem_cons_self _ _) (List.cons_prefix_cons.1 h1).1.symm
  | cons a n1 ih =>
    cases m with
    | nil =>
      exfalso
      have h1 : a :: (n1 ++ " = ".toList) <+: ' ' :: ("= ".toList ++ c) := by
        simpa [rulePrefix, formatRule] using h
      exact hn a (List.mem_cons_self _ _) (List.cons_prefix_cons.1 h1).1
    | cons b m1 =>
      have h1 : a :: (n1 ++ " = ".toList) <+: b :: (m1 ++ " = ".toList ++ c) := by
        simpa [rulePrefix, formatRule] using h
      obtain ⟨hab, h2⟩ := List.cons_prefix_cons.1 h1
      have := ih m1 (fun x hx => hn x (List.mem_cons_of_mem _ hx))
        (fun x hx => hm x (List.mem_cons_of_mem _ hx)) (by simpa [rulePrefix, formatRule] using h2)
      rw [hab, this]

theorem hasPrefix_formatRule (n m c : Str) (hn : portableName n = true)
    (hm : portableName m = true) :
    hasPrefix (formatRule m c) (rulePrefix n) = decide (n = m) := by
  by_cases h : n = m
  · subst h
    simp only [decide_True]
    exact (hasPrefix_iff _ _).2 ⟨c, rfl⟩
  · simp only [h, decide_False]
    rw [hasPrefix_eq_false]
    exact fun hp => h (prefix_name_eq n m c (portableName_no_blank n hn)
      (portableName_no_blank m hm) hp)

theorem findRule_fresh (rules : List (Str × Str)) (n : Str) (hn : portableName n = true)
    (hr : ∀ r ∈ rules, portableName r.1 = true) (hfresh : n ∉ rules.map Prod.fst) :
    findRule (rules.map fun r => formatRule r.1 r.2) n = none := by
  refine findRule_eq_none _ _ fun line hl => ?_
  obtain ⟨r, hmem, rfl⟩ := List.mem_map.1 hl
  rw [← hasPrefix_eq_false, hasPrefix_formatRule n r.1 r.2 hn (hr r hmem)]
  have : n ≠ r.1 := fun h => hfresh (List.mem_map.2 ⟨r, hmem, h.symm⟩)
  simp [this]

theorem find_rule_line (rules : List (Str × Str)) (r : Str × Str)
    (hr : ∀ x ∈ rules, portableName x.1 = true) (hmem : r ∈ rules)
    (hd : (rules.map Prod.fst).Nodup) :
    (rules.map fun x => formatRule x.1 x.2).find? (fun line => hasPrefix line (rulePrefix r.1))
      = some (formatRule r.1 r.2) := by
  induction rules with
  | nil => cases hmem
  | cons x xs ih =>
    have hx := hr x (List.mem_cons_self _ _)
    have hrn := hr r hmem
    rw [List.map_cons, List.nodup_cons] at hd
    rcases List.mem_cons.1 hmem with rfl | h1
    · simp [hasPrefix_formatRule _ _ _ hx hx]
    · have hne : r.1 ≠ x.1 := fun h => hd.1 (h ▸ List.mem_map.2 ⟨r, h1, rfl⟩)
      have := ih (fun y hy => hr y (List.mem_cons_of_mem _ hy)) h1 hd.2
      simp [hasPrefix_formatRule _ _ _ hrn hx, hne, this]

theorem getCommand_storeOf (rules : List (Str × Str)) (r : Str × Str)
    (hn : ∀ x ∈ rules, portableName x.1 = true) (hc : ∀ x ∈ rules, PortableCommand x.2)
    (hd : (rules.map Prod.fst).Nodup) (hmem : r ∈ rules) :
    getCommand (storeOf rules) r.1 = some r.2 := by
  rw [getCommand, readLines_storeOf rules hn hc, find_rule_line rules r hn hmem hd]
  simp [getCommand_formatRule r.1 r.2 (hc r hmem).2.1]

theorem getAllRules_storeOf (rules : List (Str × Str))
    (hn : ∀ x ∈ rules, portableName x.1 = true) (hc : ∀ x ∈ rules, PortableCommand x.2) :
    getAllRules (storeOf rules) = rules.map Prod.fst := by
  rw [getAllRules, readLines_storeOf rules hn hc, List.filterMap_map]
  rw [← List.filterMap_eq_map]
  refine List.filterMap_congr fun r hr => ?_
  simp only [Function.comp, splitFirstEq_formatRule r.1 r.2 (hn r hr), Option.map_some']
  rw [trimSpace_append_blank r.1 fun c hc => (portableName_chars r.1 (hn r hr) c hc).2]

theorem listRules_storeOf (rules : List (Str × Str))
    (hn : ∀ x ∈ rules, portableName x.1 = true) (hc : ∀ x ∈ rules, PortableCommand x.2) :
    listRules (storeOf rules) = rules := by
  rw [listRules, readLines_storeOf rules hn hc, List.filterMap_map]
  have : rules = rules.filterMap some := by simp
  conv_rhs => rw [this]
  refine List.filterMap_congr fun r hr => ?_
  simp only [Function.comp, splitFirstEq_formatRule r.1 r.2 (hn r hr), Option.map_some']
  rw [trimSpace_append_blank r.1 fun c hc => (portableName_chars r.1 (hn r hr) c hc).2,
    trimSpace_blank_cons, (hc r hr).2.1]

theorem exportContent_storeOf (rules : List (Str × Str))
    (hn : ∀ x ∈ rules, portableName x.1 = true) (hc : ∀ x ∈ rules, PortableCommand x.2)
    (hd : (rules.map Prod.fst).Nodup) :
    exportContent (storeOf rules) (getAllRules (storeOf rules)) []
      = rules.map fun r => portableLine r.1 r.2 := by
  rw [exportContent, getAllRules_storeOf rules hn hc, List.filterMap_map]
  simp only [ne_eq, not_true_eq_false, if_false, List.nil_append]
  rw [← List.filterMap_eq_map]
  refine List.filterMap_congr fun r hr => ?_
  simp only [Function.comp, getCommand_storeOf rules r hn hc hd hr, Option.map_some']

theorem exportRules_storeOf (rules : List (Str × Str)) (hne : rules ≠ [])
    (hn : ∀ x ∈ rules, portableName x.1 = true) (hc : ∀ x ∈ rules, PortableCommand x.2)
    (hd : (rules.map Prod.fst).Nodup) :
    exportRules (storeOf rules) [[], []]
      = some ((rules.map fun r => fprintln (portableLine r.1 r.2)).flatten) := by
  have hsel : selectRules (storeOf rules) [[], []] = (getAllRules (storeOf rules), [[]]) := by
    simp [selectRules]
  have hnames : getAllRules (storeOf rules) ≠ [] := by
    rw [getAllRules_storeOf rules hn hc]
    simpa using hne
  simp only [exportRules, hsel, hnames, if_false, List.headD_cons,
    exportContent_storeOf rules hn hc hd, writeToFile, List.map_map, Function.comp_def]

theorem readLines_portable (rules : List (Str × Str))
    (hn : ∀ x ∈ rules, portableName x.1 = true) (hc : ∀ x ∈ rules, PortableCommand x.2) :
    ((readLines (rules.map fun r => fprintln (portableLine r.1 r.2)).flatten).map fprintln).flatten
      = (rules.map fun r => fprintln (portableLine r.1 r.2)).flatten := by
  have h1 : (rules.map fun r => fprintln (portableLine r.1 r.2))
      = (rules.map fun r => portableLine r.1 r.2).map fprintln := by
    simp [List.map_map, Function.comp_def]
  rw [h1, readLines_flatten]
  · congr 2
    rw [List.map_map]
    conv_rhs => rw [← List.map_id (rules.map fun r => portableLine r.1 r.2)]
    rw [List.map_map]
    refine List.map_congr_left fun r _ => ?_
    simp only [Function.comp, id]
    unfold dropCR
    have : (portableLine r.1 r.2).getLast? = some 'b' := by
      have hl : portableLine r.1 r.2 = ("b:".toList ++ formatRule r.1 r.2 ++ [':']) ++ ['b'] := by
        simp [portableLine]
      rw [hl, List.getLast?_concat]
    rw [this]
    simp
  · intro l hl
    obtain ⟨r, hr, rfl⟩ := List.mem_map.1 hl
    intro hmem
    simp only [portableLine, List.mem_append] at hmem
    rcases hmem with (h | h) | h
    · revert h; decide
    · exact newline_not_mem_formatRule r.1 r.2 (hn r hr) (hc r hr).1 h
    · revert h; decide

theorem findAllRules_portable (rules : List (Str × Str))
    (hn : ∀ x ∈ rules, portableName x.1 = true) (hc : ∀ x ∈ rules, PortableCommand x.2) :
    ∀ fuel : Nat, (rules.map fun r => fprintln (portableLine r.1 r.2)).flatten.length ≤ fuel →
      findAllRules fuel (rules.map fun r => fprintln (portableLine r.1 r.2)).flatten
        = rules.map fun r => [r.1, r.2] := by
  induction rules with
  | nil => intro fuel _; cases fuel <;> rfl
  | cons r rs ih =>
    intro fuel hfuel
    have hr := hn r (List.mem_cons_self _ _)
    have hcr := hc r (List.mem_cons_self _ _)
    have htext : ((r :: rs).map fun r => fprintln (portableLine r.1 r.2)).flatten
        = "b:".toList ++ formatRule r.1 r.2 ++ ":b".toList
          ++ '\n' :: (rs.map fun r => fprintln (portableLine r.1 r.2)).flatten := by
      simp [fprintln, portableLine]
    rw [htext] at hfuel ⊢
    have hm := matchHere_rule r.1 r.2 ('\n' :: (rs.map fun r => fprintln (portableLine r.1 r.2)).flatten)
      (portableName_ne_nil _ hr) (fun c hx => (portableName_chars _ hr c hx).1) hcr.1 hcr.2.2.2.1
    cases fuel with
    | zero => simp at hfuel
    | succ fuel =>
      rw [findAllRules_match fuel _ _ _ hm]
      cases fuel with
      | zero => simp at hfuel
      | succ fuel =>
        rw [findAllRules_skip fuel '\n' _ (by decide),
          ih (fun x hx => hn x (List.mem_cons_of_mem _ hx))
            (fun x hx => hc x (List.mem_cons_of_mem _ hx)) fuel
            (by simp at hfuel ⊢; omega)]
        rfl

theorem extractRules_portable (html : HtmlUnescape) (rules : List (Str × Str))
    (hn : ∀ x ∈ rules, portableName x.1 = true) (hc : ∀ x ∈ rules, PortableCommand x.2) :
    extractRules html (rules.map fun r => fprintln (portableLine r.1 r.2)).flatten
      = rules.map fun r => formatRule r.1 r.2 := by
  rw [extractRules, findAllRules_portable rules hn hc _ (Nat.le_refl _), List.map_map]
  refine List.map_congr_left fun r hr => ?_
  simp only [Function.comp, List.headD_cons, List.tail_cons]
  rw [trimSpace_of_nonspace r.1 fun c hx => (portableName_chars _ (hn r hr) c hx).2,
    (hc r hr).2.1, html.plain _ (hc r hr).2.2.1]

theorem splitSpaceEqSpace_skip (c : Char) (t acc : Str) (h : ¬ " = ".toList <+: c :: t) :
    splitSpaceEqSpace (c :: t) acc = splitSpaceEqSpace t (c :: acc) := by
  rw [splitSpaceEqSpace]
  intro rest hc ht
  exact h ⟨rest, by simp [hc, ht]⟩

theorem splitSpaceEqSpace_plain (s : Str) (h : ¬ " = ".toList <:+: s) :
    ∀ acc : Str, splitSpaceEqSpace s acc = [acc.reverse ++ s] := by
  induction s with
  | nil => intro acc; simp [splitSpaceEqSpace]
  | cons c t ih =>
    intro acc
    rw [splitSpaceEqSpace_skip c t acc fun hp => h hp.isInfix,
      ih fun hin => h (hin.trans (List.suffix_cons c t).isInfix)]
    simp

theorem splitSpaceEqSpace_name (n rest : Str) (h : ∀ c ∈ n, c ≠ ' ') :
    ∀ acc : Str, splitSpaceEqSpace (n ++ " = ".toList ++ rest) acc
      = (acc.reverse ++ n) :: splitSpaceEqSpace rest [] := by
  induction n with
  | nil => intro acc; simp [splitSpaceEqSpace]
  | cons c t ih =>
    intro acc
    have hc : c ≠ ' ' := h c (List.mem_cons_self _ _)
    have hskip : ¬ " = ".toList <+: c :: (t ++ " = ".toList ++ rest) := by
      intro hp
      exact hc (List.cons_prefix_cons.1 (show ' ' :: "= ".toList <+: _ from hp)).1.symm
    rw [List.cons_append, List.cons_append, splitSpaceEqSpace_skip c _ acc hskip,
      ih fun x hx => h x (List.mem_cons_of_mem _ hx)]
    simp

theorem splitSpaceEqSpace_formatRule (n c : Str) (hn : portableName n = true)
    (hc : PortableCommand c) : splitSpaceEqSpace (formatRule n c) [] = [n, c] := by
  rw [formatRule, splitSpaceEqSpace_name n c (portableName_no_blank n hn),
    splitSpaceEqSpace_plain c hc.2.2.2.2]
  simp

theorem importRule_fresh (env : Env) (lines : List Str) (w : World) (n c : Str)
    (hn : portableName n = true) (hc : PortableCommand c) (hfresh : findRule lines n = none) :
    (importRule env (lines, w) (formatRule n c)).1 = lines ++ [formatRule n c] ∧
      (importRule env (lines, w) (formatRule n c)).2.stdin = w.stdin ∧
      (importRule env (lines, w) (formatRule n c)).2.asked = w.asked := by
  have ht1 : trimSpace n = n :=
    trimSpace_of_nonspace n fun x hx => (portableName_chars n hn x hx).2
  simp only [importRule, splitSpaceEqSpace_formatRule n c hn hc, ht1, hc.2.1, hfresh]
  cases writeFile env n (scriptContent env "EXECUTE_RULE" n c) w.bin <;> exact ⟨rfl, rfl, rfl⟩

theorem import_fold (env : Env) (todo : List (Str × Str)) :
    ∀ (done : List (Str × Str)) (w : World),
      (∀ x ∈ done ++ todo, portableName x.1 = true) → (∀ x ∈ todo, PortableCommand x.2) →
      ((done ++ todo).map Prod.fst).Nodup →
      ((todo.map fun r => formatRule r.1 r.2).foldl (importRule env)
          (done.map fun r => formatRule r.1 r.2, w)).1
        = (done ++ todo).map (fun r => formatRule r.1 r.2) ∧
      ((todo.map fun r => formatRule r.1 r.2).foldl (importRule env)
          (done.map fun r => formatRule r.1 r.2, w)).2.stdin = w.stdin ∧
      ((todo.map fun r => formatRule r.1 r.2).foldl (importRule env)
          (done.map fun r => formatRule r.1 r.2, w)).2.asked = w.asked := by
  induction todo with
  | nil => intro done w _ _ _; simp
  | cons r rs ih =>
    intro done w hn hc hd
    have hr : portableName r.1 = true := hn r (by simp)
    have hfresh : findRule (done.map fun x => formatRule x.1 x.2) r.1 = none := by
      refine findRule_fresh done r.1 hr (fun x hx => hn x (List.mem_append_left _ hx)) ?_
      intro hmem
      rw [List.map_append, List.map_cons] at hd
      have := (List.nodup_append.1 hd).2.2
      exact this hmem (List.mem_cons_self _ _)
    obtain ⟨h1, h2, h3⟩ := importRule_fresh env (done.map fun x => formatRule x.1 x.2) w r.1 r.2 hr
      (hc r (List.mem_cons_self _ _)) hfresh
    have hstep : importRule env (done.map fun x => formatRule x.1 x.2, w) (formatRule r.1 r.2)
        = ((done ++ [r]).map fun x => formatRule x.1 x.2,
            (importRule env (done.map fun x => formatRule x.1 x.2, w) (formatRule r.1 r.2)).2) := by
      refine Prod.ext ?_ rfl
      rw [h1]
      simp
    have hrec := ih (done ++ [r])
      (importRule env (done.map fun x => formatRule x.1 x.2, w) (formatRule r.1 r.2)).2
      (by simpa using hn) (fun x hx => hc x (List.mem_cons_of_mem _ hx)) (by simpa using hd)
    rw [List.map_cons, List.foldl_cons, hstep]
    rw [h2, h3] at hrec
    simpa using hrec

theorem import_of_extracted (env : Env) (html : HtmlUnescape) (file : Str) (w : World)
    (rules : List (Str × Str)) (hempty : w.store = [])
    (hn : ∀ x ∈ rules, portableName x.1 = true) (hc : ∀ x ∈ rules, PortableCommand x.2)
    (hd : (rules.map Prod.fst).Nodup)
    (hx : extractRules html ((readLines file).map fprintln).flatten
      = rules.map fun r => formatRule r.1 r.2) :
    (importRulesFromFile env html file w).store = storeOf rules ∧
      (importRulesFromFile env html file w).stdin = w.stdin ∧
      (importRulesFromFile env html file w).asked = w.asked := by
  have hfold := import_fold env rules [] w (by simpa using hn) hc (by simpa using hd)
  have hread : readLines w.store = [] := by rw [hempty]; rfl
  simp only [List.map_nil, List.nil_append] at hfold
  simp only [importRulesFromFile, hx, hread]
  exact ⟨by rw [hfold.1, writeLinesWithLock, storeOf_eq], hfold.2.1, hfold.2.2⟩

theorem importRulesFromFile_eq (env : Env) (html : HtmlUnescape) (file : Str) (w : World)
    (rules : List Str)
    (hx : extractRules html ((readLines file).map fprintln).flatten = rules) :
    importRulesFromFile env html file w
      = { (rules.foldl (importRule env) (readLines w.store, w)).2 with
          store := writeLinesWithLock (rules.foldl (importRule env) (readLines w.store, w)).1 } := by
  simp only [importRulesFromFile, hx]

/-! ## Lemmas on the comment line -/

theorem matchHere_rule_none (s : Str) (h : ¬ "b:".toList <+: s) : matchHere ruleRe s = none := by
  cases hm : matchHere ruleRe s with
  | none => rfl
  | some r =>
    rw [ruleRe_eq, matchHere_lits_iff] at hm
    obtain ⟨t, rfl, _⟩ := hm
    exact absurd (List.prefix_append _ _) h

theorem findAllRules_step (fuel : Nat) (c : Char) (t : Str)
    (hm : matchHere ruleRe (c :: t) = none) :
    findAllRules (fuel + 1) (c :: t) = findAllRules fuel t := by
  simp only [findAllRules, hm]

theorem findAllRules_comment (comment rest : Str) (h : ¬ "b:".toList <:+: comment) :
    ∀ fuel : Nat, (comment ++ '\n' :: rest).length ≤ fuel →
      findAllRules fuel (comment ++ '\n' :: rest) = findAllRules rest.length rest := by
  induction comment with
  | nil =>
    intro fuel hfuel
    cases fuel with
    | zero => simp at hfuel
    | succ fuel =>
      rw [List.nil_append, findAllRules_skip fuel '\n' rest (by decide)]
      exact findAllRules_fuel fuel rest.length rest (by simpa using hfuel) (Nat.le_refl _)
  | cons c t ih =>
    intro fuel hfuel
    cases fuel with
    | zero => simp at hfuel
    | succ fuel =>
      have hnone : matchHere ruleRe (c :: (t ++ '\n' :: rest)) = none := by
        refine matchHere_rule_none _ fun hp => ?_
        cases t with
        | nil =>
          have := (List.cons_prefix_cons.1 (show 'b' :: [':'] <+: c :: ('\n' :: rest) from hp)).2
          have := (List.cons_prefix_cons.1 this).1
          revert this
          decide
        | cons x t1 =>
          have h1 := List.cons_prefix_cons.1 (show 'b' :: [':'] <+: c :: (x :: (t1 ++ '\n' :: rest))
            from hp)
          have h2 := (List.cons_prefix_cons.1 h1.2).1
          refine h ⟨[], t1, ?_⟩
          rw [← h1.1, ← h2]
          rfl
      rw [List.cons_append, findAllRules_step fuel c _ hnone]
      exact ih (fun hin => h (hin.trans (List.suffix_cons c t).isInfix)) fuel
        (by simpa using hfuel)

/-! ## Lemmas on the names the listing gives -/

theorem splitFirstEq_some (l a b : Str) (h : splitFirstEq l = some (a, b)) :
    l = a ++ '=' :: b ∧ '=' ∉ a := by
  induction l generalizing a with
  | nil => cases h
  | cons c t ih =>
    simp only [splitFirstEq] at h
    split at h
    · rename_i hc
      simp only [Option.some.injEq, Prod.mk.injEq] at h
      obtain ⟨rfl, rfl⟩ := h
      exact ⟨by simp [hc], by simp⟩
    · rename_i hc
      cases hs : splitFirstEq t with
      | none => simp [hs] at h
      | some p =>
        obtain ⟨a1, b1⟩ := p
        simp only [hs, Option.some.injEq, Prod.mk.injEq] at h
        obtain ⟨rfl, rfl⟩ := h
        obtain ⟨h1, h2⟩ := ih a1 hs
        refine ⟨by rw [h1]; simp, ?_⟩
        intro hmem
        rcases List.mem_cons.1 hmem with h3 | h3
        · exact hc h3.symm
        · exact h2 h3

theorem splitFirstEq_none (l : Str) (h : '=' ∉ l) : splitFirstEq l = none := by
  induction l with
  | nil => rfl
  | cons c t ih =>
    have hc : c ≠ '=' := fun hc => h (by simp [hc])
    simp [splitFirstEq, hc, ih fun hm => h (List.mem_cons_of_mem _ hm)]

theorem mem_of_mem_trimSpace (s : Str) (c : Char) (h : c ∈ trimSpace s) : c ∈ s := by
  unfold trimSpace at h
  rw [List.mem_reverse] at h
  have h1 := (List.dropWhile_sublist isSpace).subset h
  rw [List.mem_reverse] at h1
  exact (List.dropWhile_sublist isSpace).subset h1

theorem trimSpace_head (s : Str) (c : Char) (h : (trimSpace s).head? = some c) :
    isSpace c = false := by
  unfold trimSpace at h
  rw [List.head?_reverse] at h
  have hsuf : ((s.dropWhile isSpace).reverse.dropWhile isSpace) <:+ (s.dropWhile isSpace).reverse :=
    List.dropWhile_suffix isSpace
  obtain ⟨pre, hpre⟩ := hsuf
  have hne : (s.dropWhile isSpace).reverse.dropWhile isSpace ≠ [] := by
    intro hnil
    rw [hnil] at h
    cases h
  have hlast : (s.dropWhile isSpace).reverse.getLast? = some c := by
    rw [← hpre, List.getLast?_append_of_ne_nil _ hne]
    exact h
  rw [List.getLast?_reverse] at hlast
  have hd : s.dropWhile isSpace ≠ [] := by
    intro hnil
    rw [hnil] at hlast
    cases hlast
  have := List.head_dropWhile_not isSpace s hd
  rw [List.head?_eq_head hd] at hlast
  simp only [Option.some.injEq] at hlast
  rw [hlast] at this
  simpa using this

theorem trimSpace_getLast (s : Str) (c : Char) (h : (trimSpace s).getLast? = some c) :
    isSpace c = false := by
  unfold trimSpace at h
  rw [List.getLast?_reverse] at h
  have hne : (s.dropWhile isSpace).reverse.dropWhile isSpace ≠ [] := by
    intro hnil
    rw [hnil] at h
    cases h
  have := List.head_dropWhile_not isSpace _ hne
  rw [List.head?_eq_head hne] at h
  simp only [Option.some.injEq] at h
  rw [h] at this
  simpa using this

theorem trimSpace_of_ends (t : Str) (h1 : ∀ c, t.head? = some c → isSpace c = false)
    (h2 : ∀ c, t.getLast? = some c → isSpace c = false) : trimSpace t = t := by
  have hd : t.dropWhile isSpace = t := dropWhile_of_head _ _ h1
  have hr : t.reverse.dropWhile isSpace = t.reverse :=
    dropWhile_of_head _ _ fun c hc => h2 c (by rw [List.getLast?_eq_head?_reverse]; exact hc)
  rw [trimSpace, hd, hr, List.reverse_reverse]

theorem trimSpace_blank_of_ends (t : Str) (h1 : ∀ c, t.head? = some c → isSpace c = false)
    (h2 : ∀ c, t.getLast? = some c → isSpace c = false) : trimSpace (t ++ [' ']) = t := by
  cases t with
  | nil => decide
  | cons x r =>
    have hx : isSpace x = false := h1 x rfl
    have hd : (x :: r ++ [' ']).dropWhile isSpace = x :: r ++ [' '] := by
      simp [List.dropWhile, hx]
    have hb : isSpace ' ' = true := by decide
    have hr : (x :: r).reverse.dropWhile isSpace = (x :: r).reverse :=
      dropWhile_of_head _ _ fun c hc => h2 c (by rw [List.getLast?_eq_head?_reverse]; exact hc)
    rw [trimSpace, hd, List.reverse_append, List.reverse_singleton, List.singleton_append,
      List.dropWhile_cons_of_pos hb, hr, List.reverse_reverse]

theorem trimSpace_trimSpace_blank (a : Str) : trimSpace (trimSpace a ++ [' ']) = trimSpace a :=
  trimSpace_blank_of_ends _ (trimSpace_head a) (trimSpace_getLast a)

theorem trimSpace_blank_of_fixed (n : Str) (h : trimSpace n = n) : trimSpace (n ++ [' ']) = n := by
  have := trimSpace_trimSpace_blank n
  rw [h] at this
  exact this

theorem splitFirstEq_rulePrefix (n rest : Str) (hn : '=' ∉ n) :
    splitFirstEq (rulePrefix n ++ rest) = some (n ++ [' '], ' ' :: rest) := by
  have : rulePrefix n ++ rest = (n ++ [' ']) ++ '=' :: (' ' :: rest) := by simp [rulePrefix]
  rw [this, splitFirstEq_append]
  intro x hx
  rcases List.mem_append.1 hx with h1 | h1
  · exact fun hxe => hn (hxe ▸ h1)
  · rw [List.mem_singleton.1 h1]; decide

theorem canonicalLine_decompose (l a b : Str) (hc : canonicalLine l = true)
    (hs : splitFirstEq l = some (a, b)) :
    ∃ rest, l = rulePrefix (trimSpace a) ++ rest ∧ a = trimSpace a ++ [' '] ∧ b = ' ' :: rest := by
  simp only [canonicalLine, hs] at hc
  obtain ⟨rest, hrest⟩ := (hasPrefix_iff _ _).1 hc
  have hna : '=' ∉ trimSpace a := fun hm =>
    (splitFirstEq_some l a b hs).2 (mem_of_mem_trimSpace a _ hm)
  have h2 := splitFirstEq_rulePrefix (trimSpace a) rest hna
  rw [hrest, hs] at h2
  simp only [Option.some.injEq, Prod.mk.injEq] at h2
  exact ⟨rest, hrest.symm, h2.1, h2.2⟩

theorem splitFirstEq_of_mem (s : Str) (h : '=' ∈ s) : splitFirstEq s ≠ none := by
  induction s with
  | nil => cases h
  | cons x xs ih =>
    by_cases hx : x = '='
    · simp [splitFirstEq, hx]
    · have hxs : '=' ∈ xs := by
        rcases List.mem_cons.1 h with h1 | h1
        · exact absurd h1.symm hx
        · exact h1
      cases hs : splitFirstEq xs with
      | none => exact absurd hs (ih hxs)
      | some p => simp [splitFirstEq, hx, hs]

theorem hasPrefix_of_no_eq (l n : Str) (h : splitFirstEq l = none) :
    hasPrefix l (rulePrefix n) = false := by
  rw [hasPrefix_eq_false]
  rintro ⟨rest, rfl⟩
  exact splitFirstEq_of_mem _ (by simp [rulePrefix]) h

theorem hasPrefix_listed_iff (l a b n : Str) (hc : canonicalLine l = true)
    (hs : splitFirstEq l = some (a, b)) (hn : '=' ∉ n) (htrim : trimSpace (n ++ [' ']) = n) :
    hasPrefix l (rulePrefix n) = true ↔ trimSpace a = n := by
  constructor
  · intro hp
    obtain ⟨rest, hrest⟩ := (hasPrefix_iff _ _).1 hp
    have h2 := splitFirstEq_rulePrefix n rest hn
    rw [hrest, hs] at h2
    simp only [Option.some.injEq, Prod.mk.injEq] at h2
    rw [h2.1, htrim]
  · intro ha
    obtain ⟨rest, hrest, _, _⟩ := canonicalLine_decompose l a b hc hs
    rw [hasPrefix_iff, ← ha]
    exact ⟨rest, hrest.symm⟩

theorem lookup_in_lines (lines : List Str) (n : Str) (hn : '=' ∉ n)
    (htrim : trimSpace (n ++ [' ']) = n) (hc : ∀ l ∈ lines, canonicalLine l = true) :
    (lines.find? fun line => hasPrefix line (rulePrefix n)).map
        (fun line => trimSpace (trimPrefix line (rulePrefix n)))
      = ((lines.filterMap fun line =>
          (splitFirstEq line).map fun parts => (trimSpace parts.1, trimSpace parts.2)).find?
            fun r => r.1 == n).map Prod.snd := by
  induction lines with
  | nil => rfl
  | cons l ls ih =>
    have hl := hc l (List.mem_cons_self _ _)
    have hrec := ih fun x hx => hc x (List.mem_cons_of_mem _ hx)
    cases hs : splitFirstEq l with
    | none =>
      have h1 := hasPrefix_of_no_eq l n hs
      simp only [List.find?_cons, h1, List.filterMap_cons, hs, Option.map_none']
      exact hrec
    | some p =>
      obtain ⟨a, b⟩ := p
      have hiff := hasPrefix_listed_iff l a b n hl hs hn htrim
      by_cases ha : trimSpace a = n
      · have hp := hiff.2 ha
        have hb2 : (trimSpace a == n) = true := by simpa using ha
        obtain ⟨rest, hrest, _, hb⟩ := canonicalLine_decompose l a b hl hs
        simp only [List.find?_cons, hp, List.filterMap_cons, hs, Option.map_some', hb2]
        rw [trimPrefix, if_pos hp, hb, trimSpace_blank_cons]
        congr 2
        rw [hrest, ha]
        simp
      · have hp : hasPrefix l (rulePrefix n) = false := by
          cases hh : hasPrefix l (rulePrefix n) with
          | false => rfl
          | true => exact absurd (hiff.1 hh) ha
        have hb2 : (trimSpace a == n) = false := by simpa using ha
        simp only [List.find?_cons, hp, List.filterMap_cons, hs, Option.map_some', hb2]
        exact hrec

theorem listed_name_shape (l a b : Str) (hs : splitFirstEq l = some (a, b)) :
    '=' ∉ trimSpace a ∧ trimSpace (trimSpace a ++ [' ']) = trimSpace a :=
  ⟨fun hm => (splitFirstEq_some l a b hs).2 (mem_of_mem_trimSpace a _ hm),
    trimSpace_trimSpace_blank a⟩

/-! ## Lemmas on the rewrite of the store -/

theorem findRule_at (before after : List Str) (line name : Str)
    (hbefore : ∀ l ∈ before, ¬ rulePrefix name <+: l) (hline : rulePrefix name <+: line) :
    findRule (before ++ line :: after) name = some before.length := by
  induction before with
  | nil => simp [findRule, (hasPrefix_iff _ _).2 hline]
  | cons x xs ih =>
    have hx : hasPrefix x (rulePrefix name) = false :=
      (hasPrefix_eq_false _ _).2 (hbefore x (List.mem_cons_self _ _))
    simp [findRule, hx, ih fun l hl => hbefore l (List.mem_cons_of_mem _ hl)]

theorem eraseIdx_at (before after : List Str) (line : Str) :
    (before ++ line :: after).eraseIdx before.length = before ++ after := by
  induction before with
  | nil => rfl
  | cons x xs ih => simp [List.eraseIdx, ih]

theorem set_at (before after : List Str) (line new : Str) :
    (before ++ line :: after).set before.length new = before ++ new :: after := by
  induction before with
  | nil => rfl
  | cons x xs ih => simp [List.set, ih]

theorem dropCR_of_no_cr (l : Str) (h : l.getLast? ≠ some '\r') : dropCR l = l := by
  simp [dropCR, h]

theorem map_dropCR_of_no_cr (lines : List Str) (h : ∀ l ∈ lines, l.getLast? ≠ some '\r') :
    lines.map dropCR = lines := by
  induction lines with
  | nil => rfl
  | cons l ls ih =>
    simp [dropCR_of_no_cr l (h l (List.mem_cons_self _ _)),
      ih fun x hx => h x (List.mem_cons_of_mem _ hx)]

theorem readLines_written (lines : List Str) (hplain : ∀ l ∈ lines, isPlain l = true) :
    readLines (writeLinesWithLock lines) = lines.map dropCR :=
  readLines_flatten lines fun l hl => not_newline_of_plain l (hplain l hl)

theorem isFileName_of_reserved (name : Str) (h : isReservedName name = true) :
    isFileName name = true := by
  have hall : reservedNames.all (fun reserved => isFileName reserved.toList) = true := by decide
  simp only [isReservedName, List.any_eq_true, beq_iff_eq] at h
  obtain ⟨reserved, hmem, heq⟩ := h
  rw [heq]
  exact List.all_eq_true.1 hall reserved hmem

theorem deleteRule_at (env : Env) (name : Str) (w : World) (before after : List Str) (line : Str)
    (hlines : readLines w.store = before ++ line :: after)
    (hbefore : ∀ l ∈ before, ¬ (name ++ " = ".toList) <+: l)
    (hline : (name ++ " = ".toList) <+: line)
    (hplain : ∀ l ∈ before ++ after, isPlain l = true) :
    deleteRule env name w =
      match removeEntry env name w.bin with
      | none => (Outcome.scriptFailed, { w with store := writeLinesWithLock (before ++ after) })
      | some bin1 =>
        (Outcome.done, { w with store := writeLinesWithLock (before ++ after), bin := bin1 }) := by
  have hf : findRule (before ++ line :: after) name = some before.length :=
    findRule_at before after line name hbefore hline
  have hw := writeLines_plain (before ++ after) hplain
  simp only [deleteRule, hlines, hf, eraseIdx_at, hw]
  rfl

theorem createRule_store_cases (env : Env) (name command : Str) (w : World)
    (hname : isPlain name = true) (hcmd : isPlain command = true)
    (hstore : ∀ line ∈ readLines w.store, isPlain line = true) :
    (createRule env name command w).2.store = w.store ∨
      (findRule (readLines w.store) name = none ∧
        (createRule env name command w).2.store
          = writeLinesWithLock (readLines w.store ++ [formatRule name command])) ∨
      (∃ i, findRule (readLines w.store) name = some i ∧
        (createRule env name command w).2.store
          = writeLinesWithLock ((readLines w.store).set i (formatRule name command))) := by
  have hnewPlain := isPlain_formatRule name command hname hcmd
  cases hres : isReservedName name with
  | true => exact Or.inl (by simp [createRule, hres])
  | false =>
    cases hf : findRule (readLines w.store) name with
    | none =>
      have hp : ∀ l ∈ readLines w.store ++ [formatRule name command], isPlain l = true := by
        intro l hl
        rcases List.mem_append.1 hl with h1 | h1
        · exact hstore l h1
        · rw [List.mem_singleton.1 h1]; exact hnewPlain
      refine Or.inr (Or.inl ⟨rfl, ?_⟩)
      simp only [createRule, hres, hf, writeLines_plain _ hp, Bool.false_eq_true, if_false]
      cases writeFile env name (scriptContent env "EXECUTE_RULE" name command) w.bin <;> rfl
    | some i =>
      by_cases hask : (ask w name).1 = "y".toList
      · have hp := mem_set_plain _ i _ hstore hnewPlain
        refine Or.inr (Or.inr ⟨i, rfl, ?_⟩)
        simp only [createRule, hres, hf, hask, writeLines_plain _ hp, Bool.false_eq_true, if_false,
          ne_eq, not_true_eq_false]
        cases writeFile env name (scriptContent env "EXECUTE_RULE" name command)
          (ask w name).2.bin <;> rfl
      · refine Or.inl ?_
        simp only [createRule, hres, hf, Bool.false_eq_true, if_false, ne_eq, hask,
          not_false_eq_true, if_true]
        exact ask_store w name

/-! ## Lemmas on the names after a rewrite -/

theorem splitFirstEq_dropCR (l : Str) :
    (splitFirstEq (dropCR l)).map (fun parts => trimSpace parts.1)
      = (splitFirstEq l).map fun parts => trimSpace parts.1 := by
  unfold dropCR
  split
  · rename_i hlast
    cases hs : splitFirstEq l with
    | none =>
      have hno : '=' ∉ l.dropLast := by
        intro hm
        exact splitFirstEq_of_mem l ((List.dropLast_sublist l).subset hm) hs
      rw [splitFirstEq_none _ hno]
    | some p =>
      obtain ⟨a, b⟩ := p
      obtain ⟨hl, ha⟩ := splitFirstEq_some l a b hs
      rcases List.eq_nil_or_concat b with rfl | ⟨b1, x, rfl⟩
      · exfalso
        have h1 : l = a ++ ['='] := hl
        rw [h1, List.getLast?_concat] at hlast
        revert hlast
        decide
      · have h1 : l = (a ++ '=' :: b1) ++ [x] := by
          rw [hl, List.concat_eq_append]
          simp
        rw [h1, List.dropLast_concat, splitFirstEq_append a b1 fun c hc hce => ha (hce ▸ hc)]
        rfl
  · rfl

theorem getAllRules_written (lines : List Str) (h : ∀ l ∈ lines, '\n' ∉ l) :
    getAllRules (writeLinesWithLock lines)
      = lines.filterMap fun line => (splitFirstEq line).map fun parts => trimSpace parts.1 := by
  rw [getAllRules, writeLinesWithLock, readLines_flatten lines h, List.filterMap_map]
  refine List.filterMap_congr fun l _ => ?_
  exact splitFirstEq_dropCR l

theorem name_of_prefixed (name line : Str) (hn : '=' ∉ name) (htrim : trimSpace name = name)
    (hp : rulePrefix name <+: line) :
    (splitFirstEq line).map (fun parts => trimSpace parts.1) = some name := by
  obtain ⟨rest, rfl⟩ := hp
  rw [splitFirstEq_rulePrefix name rest hn]
  simp only [Option.map_some']
  rw [trimSpace_blank_of_fixed name htrim]

theorem filterMap_set_same {β : Type} (f : Str → Option β) (lines : List Str) (name new : Str)
    (hnew : ∀ line, hasPrefix line (rulePrefix name) = true → f line = f new) :
    ∀ i, findRule lines name = some i → (lines.set i new).filterMap f = lines.filterMap f := by
  induction lines with
  | nil => intro i h; cases h
  | cons l ls ih =>
    intro i h
    by_cases hl : hasPrefix l (rulePrefix name) = true
    · have : i = 0 := by simpa [findRule, hl] using h.symm
      subst this
      simp only [List.set_cons_zero, List.filterMap_cons, hnew l hl]
    · simp only [findRule, hl, Bool.false_eq_true, if_false, Option.map_eq_some'] at h
      obtain ⟨j, hj, rfl⟩ := h
      simp only [List.set_cons_succ, List.filterMap_cons, ih j hj]

/-! ## The claims -/

/-- C1, as stated, fails: `createRule` with the command `echo a\tb` on the
empty store succeeds, and `getCommand` then returns the command with a
tabulation in the place of `\t`. -/
theorem createRule_unquotes_command :
    isReservedName "tab".toList = false ∧
      (createRule sampleEnv "tab".toList "echo a\\tb".toList emptyWorld).1 = Outcome.done ∧
      getCommand (createRule sampleEnv "tab".toList "echo a\\tb".toList emptyWorld).2.store
        "tab".toList = some "echo a\tb".toList ∧
      getCommand (createRule sampleEnv "tab".toList "echo a\\tb".toList emptyWorld).2.store
        "tab".toList ≠ some "echo a\\tb".toList := by
  decide

/-- C1 amended: for a name that is not reserved and a command without white
space at its ends, when the name, the command and every line of the store
hold no backslash, no double quote and no line break, and the name is absent
from the store or the operator answers `y`, `createRule` followed by
`getCommand` returns exactly the command. -/
theorem createRule_then_getCommand (env : Env) (name command : Str) (w : World)
    (hres : isReservedName name = false)
    (hname : isPlain name = true) (hcmd : isPlain command = true)
    (htrim : trimSpace command = command)
    (hstore : ∀ line ∈ readLines w.store, isPlain line = true)
    (hok : (∀ line ∈ readLines w.store, ¬ (name ++ " = ".toList) <+: line)
      ∨ w.stdin.head? = some "y".toList) :
    getCommand (createRule env name command w).2.store name = some command := by
  have hnewPlain := isPlain_formatRule name command hname hcmd
  have hnewPre : hasPrefix (formatRule name command) (rulePrefix name) = true :=
    (hasPrefix_iff _ _).2 ⟨command, rfl⟩
  cases hf : findRule (readLines w.store) name with
  | none =>
    have hp : ∀ l ∈ readLines w.store ++ [formatRule name command], isPlain l = true := by
      intro l hl
      rcases List.mem_append.1 hl with h1 | h1
      · exact hstore l h1
      · rw [List.mem_singleton.1 h1]; exact hnewPlain
    have hg := getCommand_after_write _ name command hp htrim
      (find_after_append _ name _ hf hnewPre)
    simp only [createRule, hres, hf, writeLines_plain _ hp, Bool.false_eq_true, if_false]
    cases writeFile env name (scriptContent env "EXECUTE_RULE" name command) w.bin <;> exact hg
  | some i =>
    have hy : w.stdin.head? = some "y".toList := by
      rcases hok with h | h
      · rw [findRule_eq_none _ name h] at hf
        cases hf
      · exact h
    have hask : (ask w name).1 = "y".toList := ask_y w name hy
    have hp := mem_set_plain _ i _ hstore hnewPlain
    have hg := getCommand_after_write _ name command hp htrim
      (find_after_set _ name _ i hf hnewPre)
    simp only [createRule, hres, hf, hask, writeLines_plain _ hp, Bool.false_eq_true, if_false,
      ne_eq, not_true_eq_false]
    cases writeFile env name (scriptContent env "EXECUTE_RULE" name command) (ask w name).2.bin <;>
      exact hg

/-- C1 amended, on a store that holds another rule. -/
theorem createRule_then_getCommand_example :
    getCommand
        (createRule sampleEnv "up".toList "sudo apt update -y".toList
          { emptyWorld with store := "ll = ls -l\n".toList }).2.store "up".toList
      = some "sudo apt update -y".toList :=
  createRule_then_getCommand sampleEnv "up".toList "sudo apt update -y".toList
    { emptyWorld with store := "ll = ls -l\n".toList }
    (by decide) (by decide) (by decide) (by decide) (by decide) (Or.inl (by decide))

/-- C2, as stated, fails: on the store `a=b` and an empty script directory,
`syncRulesWithScripts` meets no I/O failure (no file it cannot remove, no
script it cannot write), `a` is a rule name, and no script is there: the
command of `a` is not found. -/
theorem sync_leaves_rule_without_script :
    (syncRulesWithScripts sampleEnv { emptyWorld with store := "a=b\n".toList }).2
        = ([], ["a".toList], []) ∧
      getAllRules "a=b\n".toList = ["a".toList] ∧
      (syncRulesWithScripts sampleEnv { emptyWorld with store := "a=b\n".toList }).1.bin = [] := by
  decide

/-- C2 amended: when every rule name of the store is a file name (not
empty, neither `.` nor `..`, without `/`) and `syncRulesWithScripts` reports
nothing, neither "Error deleting orphaned script" nor "Error getting
command" nor "Error creating/updating script", the files of the script
directory are named exactly by the rule names of the store; the directories
in it are left as they were, and so is the store. -/
theorem sync_files_are_rules (env : Env) (w : World)
    (hnames : ∀ n ∈ getAllRules w.store, isFileName n = true)
    (h : (syncRulesWithScripts env w).2 = ([], [], [])) :
    (syncRulesWithScripts env w).1.store = w.store ∧
      (∀ n, (∃ content, (n, Node.file content) ∈ (syncRulesWithScripts env w).1.bin) ↔
        n ∈ getAllRules w.store) ∧
      (∀ n b, (n, Node.dir b) ∈ (syncRulesWithScripts env w).1.bin ↔ (n, Node.dir b) ∈ w.bin) := by
  simp only [syncRulesWithScripts, Prod.mk.injEq] at h
  obtain ⟨hrem, hget, hwrite⟩ := h
  obtain ⟨_, h1, h2⟩ := sync_fold env w.store (getAllRules w.store) hnames
    ((removeOrphans env (getAllRules w.store) w.bin).1, [], []) (Prod.ext hget hwrite)
  refine ⟨rfl, fun n => ?_, fun n b => ?_⟩
  · refine (h1 n).trans ⟨?_, fun hn => Or.inr hn⟩
    rintro (⟨c, hc⟩ | hn)
    · exact ((mem_removeOrphans_file _ _ _ hrem _ _).1 hc).2
    · exact hn
  · exact (h2 n b).trans (mem_removeOrphans_dir _ _ _ _ _)

/-- C2 amended, on a store of two rules and a directory that holds an orphan
script, a stale script and a directory. -/
theorem sync_files_are_rules_example :
    (syncRulesWithScripts sampleEnv
        { emptyWorld with
          store := "up = apt update\nll = ls -l\n".toList,
          bin := [("old".toList, Node.file []), ("up".toList, Node.file []),
            ("lib".toList, Node.dir false)] }).2 = ([], [], []) ∧
      ∀ n, (∃ content, (n, Node.file content) ∈
          (syncRulesWithScripts sampleEnv
            { emptyWorld with
              store := "up = apt update\nll = ls -l\n".toList,
              bin := [("old".toList, Node.file []), ("up".toList, Node.file []),
                ("lib".toList, Node.dir false)] }).1.bin) ↔
        n ∈ getAllRules "up = apt update\nll = ls -l\n".toList :=
  ⟨by decide, (sync_files_are_rules sampleEnv _ (by decide) (by decide)).2.1⟩

/-- C3: a reserved name is rejected by `createRule` and by `updateRule`, whatever
the command and the state, and the state (store, script directory, operator)
is left exactly as it was. -/
theorem reserved_name_rejected (env : Env) (name command : Str) (w : World)
    (hres : isReservedName name = true) :
    createRule env name command w = (Outcome.reserved, w) ∧
      updateRule env name command w = (Outcome.reserved, w) := by
  simp [createRule, updateRule, hres]

/-- C3 at the name `passwd`, on a store that already holds rules. -/
theorem reserved_name_rejected_passwd :
    isReservedName "passwd".toList = true ∧
      createRule sampleEnv "passwd".toList "ls".toList
          { emptyWorld with store := "up = apt update\n".toList }
        = (Outcome.reserved, { emptyWorld with store := "up = apt update\n".toList }) ∧
      updateRule sampleEnv "passwd".toList "ls".toList
          { emptyWorld with store := "up = apt update\n".toList }
        = (Outcome.reserved, { emptyWorld with store := "up = apt update\n".toList }) :=
  ⟨by decide, reserved_name_rejected sampleEnv "passwd".toList "ls".toList
    { emptyWorld with store := "up = apt update\n".toList } (by decide)⟩

/-- C4, as stated, fails: `deleteRule` on the reserved name `passwd` is not
rejected; the line `passwd = ls` and the script `passwd` are removed. -/
theorem deleteRule_reserved_is_deleted :
    isReservedName "passwd".toList = true ∧
      deleteRule sampleEnv "passwd".toList
          { store := "passwd = ls\n".toList, bin := [("passwd".toList, Node.file [])],
            stdin := [], asked := [] }
        = (Outcome.done, emptyWorld) := by
  decide

/-- C4 amended: `deleteRule` makes no test of the reserved names and never
answers "reserved".  For a reserved name that no line of the store starts
with (followed by ` = `) it answers "not found" and leaves the state as it
was.  When a line starts with it, the answer is not "not found", and the
deletion goes on as for any name: the other lines holding no backslash, no
double quote and no line break, the store is written back without the first
such line, and the answer is "deleted" or, the script not removed, "Error
deleting script"; a reserved name is a file name, so the script is the entry
of that name in the script directory: when it is a file the file system
lets go, it is removed and the answer is "deleted", and so is the answer
when no entry has that name. -/
theorem deleteRule_reserved_as_any_name (env : Env) (name : Str) (w : World)
    (hres : isReservedName name = true) :
    (deleteRule env name w).1 ≠ Outcome.reserved ∧
      ((∀ line ∈ readLines w.store, ¬ (name ++ " = ".toList) <+: line) →
        deleteRule env name w = (Outcome.notFound, w)) ∧
      ((∃ line ∈ readLines w.store, (name ++ " = ".toList) <+: line) →
        (deleteRule env name w).1 ≠ Outcome.notFound) ∧
      (∀ (before after : List Str) (line : Str),
        readLines w.store = before ++ line :: after →
        (∀ l ∈ before, ¬ (name ++ " = ".toList) <+: l) →
        (name ++ " = ".toList) <+: line →
        (∀ l ∈ before ++ after, isPlain l = true) →
        (deleteRule env name w).2.store = writeLinesWithLock (before ++ after) ∧
          ((deleteRule env name w).1 = Outcome.done ∨
            (deleteRule env name w).1 = Outcome.scriptFailed) ∧
          (∀ content : Str, lookupNode name w.bin = some (Node.file content) →
            env.removable name = true →
            deleteRule env name w
              = (Outcome.done,
                { w with
                  store := writeLinesWithLock (before ++ after)
                  bin := w.bin.filter fun e => !(e.1 == name) })) ∧
          (lookupNode name w.bin = none → env.nameOk name = true →
            deleteRule env name w
              = (Outcome.done, { w with store := writeLinesWithLock (before ++ after) }))) := by
  have hentry : env.entryOf name = some name :=
    env.entryOf_fileName name (isFileName_of_reserved name hres)
  refine ⟨?_, ?_, ?_, ?_⟩
  · unfold deleteRule
    simp only
    split
    · simp
    · split
      · simp
      · split <;> simp
  · intro h
    have := findRule_eq_none _ name h
    simp [deleteRule, this]
  · intro h
    obtain ⟨i, hi⟩ := findRule_isSome _ name h
    unfold deleteRule
    simp only [hi]
    split
    · simp
    · split <;> simp
  · intro before after line hlines hbefore hline hplain
    have hd := deleteRule_at env name w before after line hlines hbefore hline hplain
    refine ⟨?_, ?_, ?_, ?_⟩
    · rw [hd]
      cases removeEntry env name w.bin <;> rfl
    · rw [hd]
      cases removeEntry env name w.bin <;> simp
    · intro content hfile hrem
      rw [hd]
      simp [removeEntry, hentry, hfile, hrem]
    · intro hnone hok
      rw [hd]
      simp [removeEntry, hentry, hnone, hok]

/-- C4 amended, at the name `passwd`: on a store without that rule nothing
is rejected as reserved, and on a store with it the line and the script are
removed. -/
theorem deleteRule_reserved_as_any_name_passwd :
    isReservedName "passwd".toList = true ∧
      (deleteRule sampleEnv "passwd".toList { emptyWorld with store := "up = ls\n".toList }).1
        ≠ Outcome.reserved ∧
      deleteRule sampleEnv "passwd".toList
          { emptyWorld with
            store := "ll = ls -l\npasswd = ls\nup = ls\n".toList
            bin := [("passwd".toList, Node.file []), ("up".toList, Node.file [])] }
        = (Outcome.done,
          { emptyWorld with
            store := writeLinesWithLock (["ll = ls -l".toList] ++ ["up = ls".toList])
            bin := [("passwd".toList, Node.file []), ("up".toList, Node.file [])].filter
              fun e => !(e.1 == "passwd".toList) }) :=
  ⟨by decide,
    (deleteRule_reserved_as_any_name sampleEnv "passwd".toList
      { emptyWorld with store := "up = ls\n".toList } (by decide)).1,
    ((deleteRule_reserved_as_any_name sampleEnv "passwd".toList
      { emptyWorld with
        store := "ll = ls -l\npasswd = ls\nup = ls\n".toList
        bin := [("passwd".toList, Node.file []), ("up".toList, Node.file [])] }
      (by decide)).2.2.2 ["ll = ls -l".toList] ["up = ls".toList] "passwd = ls".toList
      (by decide) (by decide) (by decide) (by decide)).2.2.1 [] (by decide) (by decide)⟩

/-- C5: the import checks no name against the reserved names.  From the empty
store, importing the line `b:passwd = ls:b` leaves the store with the rule
`passwd`, a reserved name. -/
theorem import_admits_reserved_name (env : Env) (html : HtmlUnescape) :
    isReservedName "passwd".toList = true ∧
      (importRulesFromFile env html "b:passwd = ls:b\n".toList emptyWorld).store
        = "passwd = ls\n".toList ∧
      getAllRules (importRulesFromFile env html "b:passwd = ls:b\n".toList emptyWorld).store
        = ["passwd".toList] := by
  have h0 : ((readLines "b:passwd = ls:b\n".toList).map fprintln).flatten
      = "b:passwd = ls:b\n".toList := by decide
  have h1 : findAllRules "b:passwd = ls:b\n".toList.length "b:passwd = ls:b\n".toList
      = [["passwd".toList, "ls".toList]] := by decide
  have h2 : html.run "ls".toList = "ls".toList := html.plain _ (by decide)
  have h3 : trimSpace "passwd".toList = "passwd".toList := by decide
  have h4 : trimSpace "ls".toList = "ls".toList := by decide
  have hx : extractRules html ((readLines "b:passwd = ls:b\n".toList).map fprintln).flatten
      = [("passwd".toList, "ls".toList)].map fun r => formatRule r.1 r.2 := by
    rw [h0, extractRules, h1]
    simp only [List.map, List.headD, List.tail, h3, h4, h2]
  have := (import_of_extracted env html _ emptyWorld [("passwd".toList, "ls".toList)] rfl
    (by decide)
    (by
      intro x hx1
      rw [List.mem_singleton.1 hx1]
      exact ⟨by decide, by decide, by decide, by decide, by decide⟩)
    (by decide) hx).1
  rw [this]
  exact ⟨by decide, by decide, by decide⟩

/-- C6: when no line of the store starts with the name followed by ` = `,
`deleteRule` answers "not found" and writes nothing: the store file, the
script directory and the operator are as before. -/
theorem deleteRule_absent_not_found (env : Env) (name : Str) (w : World)
    (h : ∀ line ∈ readLines w.store, ¬ (name ++ " = ".toList) <+: line) :
    deleteRule env name w = (Outcome.notFound, w) := by
  have := findRule_eq_none _ name h
  simp [deleteRule, this]

/-- C6 at the name `down`, on a store that holds the rule `up` only. -/
theorem deleteRule_absent_not_found_down :
    deleteRule sampleEnv "down".toList
        { emptyWorld with store := "up = ls\n".toList, bin := [("up".toList, Node.file [])] }
      = (Outcome.notFound,
          { emptyWorld with store := "up = ls\n".toList, bin := [("up".toList, Node.file [])] }) :=
  deleteRule_absent_not_found sampleEnv "down".toList
    { emptyWorld with store := "up = ls\n".toList, bin := [("up".toList, Node.file [])] }
    (by decide)

/-- C7, as stated, fails: on the command written with `<bottle:username>`
the result is not `ssh -p 2222 alice@example.com`. -/
theorem processBottles_angle_form_not_replaced :
    (processBottles "ssh -p 2222 <bottle:username>@example.com".toList aliceValues emptyWorld).1
      ≠ "ssh -p 2222 alice@example.com".toList := by
  decide

/-- C7 amended: `<bottle:username>` is not the form of a placeholder of the
program, which is `b%('username')%b`; the command written with it comes back
unchanged, and nothing is asked. -/
theorem processBottles_angle_form_unchanged (w : World) :
    processBottles "ssh -p 2222 <bottle:username>@example.com".toList aliceValues w
      = ("ssh -p 2222 <bottle:username>@example.com".toList, w) := by
  rfl

/-- C8: when the value map holds a value for every token that occurs in the
command, `processBottles` asks nothing and returns the one text that the
substitution of the specification gives: reading from left to right, each
placeholder `b%('token')%b` is replaced by the value of its token, the other
characters are kept. -/
theorem processBottles_substitutes (command : Str) (bottleValues : Str → Option Str) (w : World)
    (h : ∀ token : Str, token ≠ [] → apostrophe ∉ token →
        ("b%('".toList ++ token ++ "')%b".toList) <:+: command →
        ∃ value, bottleValues token = some value) :
    (processBottles command bottleValues w).2 = w ∧
      ∀ out : Str, Substituted bottleValues command out ↔
        out = (processBottles command bottleValues w).1 := by
  have hsub := substituted_processBottlesLoop bottleValues w command.length command
    (Nat.le_refl _) h
  have hfun := processBottlesLoop_of_substituted bottleValues w command _ hsub
    command.length (Nat.le_refl _)
  refine ⟨by rw [processBottles, hfun], fun out => ⟨fun ho => ?_, fun ho => ?_⟩⟩
  · have := processBottlesLoop_of_substituted bottleValues w command out ho
      command.length (Nat.le_refl _)
    rw [processBottles, this]
  · rw [ho]
    exact hsub

/-- C8 on the example of the help text, and on a command that names the
token twice. -/
theorem processBottles_substitutes_ssh :
    (processBottles "ssh -p 2222 b%('username')%b@example.com".toList aliceValues emptyWorld
        = ("ssh -p 2222 alice@example.com".toList, emptyWorld)) ∧
      Substituted aliceValues "ssh -p 2222 b%('username')%b@example.com".toList
        "ssh -p 2222 alice@example.com".toList ∧
      Substituted aliceValues "echo b%('username')%b b%('username')%b".toList
        "echo alice alice".toList :=
  ⟨by decide,
    ((processBottles_substitutes "ssh -p 2222 b%('username')%b@example.com".toList aliceValues
      emptyWorld (fun token hne hq hin => by
        have hmem := mem_tokensAt _ token hne hq hin
        have hall : ∀ t ∈ tokensAt "ssh -p 2222 b%('username')%b@example.com".toList,
            (aliceValues t).isSome = true := by decide
        exact Option.isSome_iff_exists.1 (hall token hmem))).2 _).2 (by decide),
    ((processBottles_substitutes "echo b%('username')%b b%('username')%b".toList aliceValues
      emptyWorld (fun token hne hq hin => by
        have hmem := mem_tokensAt _ token hne hq hin
        have hall : ∀ t ∈ tokensAt "echo b%('username')%b b%('username')%b".toList,
            (aliceValues t).isSome = true := by decide
        exact Option.isSome_iff_exists.1 (hall token hmem))).2 _).2 (by decide)⟩

/-- C9: a command without placeholder comes back unchanged, whatever the value
map, and nothing is asked: the operator and the rest of the state are as
before. -/
theorem processBottles_without_placeholder (command : Str) (bottleValues : Str → Option Str)
    (w : World) (h : ∀ p : Str, IsPlaceholder p → ¬ p <:+: command) :
    processBottles command bottleValues w = (command, w) :=
  processBottlesLoop_plain bottleValues w command command.length h

/-- C9 on the command of the first example of the help text. -/
theorem processBottles_without_placeholder_example :
    processBottles "sudo apt update -y".toList aliceValues emptyWorld
      = ("sudo apt update -y".toList, emptyWorld) :=
  processBottles_without_placeholder "sudo apt update -y".toList aliceValues emptyWorld
    (by
      rintro p ⟨token, hne, hq, rfl⟩ hin
      have hmem := mem_tokensAt _ token hne hq hin
      have hnil : tokensAt "sudo apt update -y".toList = [] := by decide
      rw [hnil] at hmem
      cases hmem)

/-- C10, as stated, fails: the rule `bk = scp notes host:backup` is exported
as `b:bk = scp notes host:backup:b`, and the import of that text into the
empty store gives the rule `bk = scp notes host`, whatever the decoder of
the entities does. -/
theorem export_import_cuts_command :
    exportRules "bk = scp notes host:backup\n".toList [[], []]
        = some "b:bk = scp notes host:backup:b\n".toList ∧
      ∀ html : HtmlUnescape,
        (importRulesFromFile sampleEnv html "b:bk = scp notes host:backup:b\n".toList
          emptyWorld).store = "bk = scp notes host\n".toList := by
  refine ⟨by decide, fun html => ?_⟩
  have h0 : ((readLines "b:bk = scp notes host:backup:b\n".toList).map fprintln).flatten
      = "b:bk = scp notes host:backup:b\n".toList := by decide
  have h1 : findAllRules "b:bk = scp notes host:backup:b\n".toList.length
      "b:bk = scp notes host:backup:b\n".toList
      = [["bk".toList, "scp notes host".toList]] := by decide
  have h2 : html.run "scp notes host".toList = "scp notes host".toList :=
    html.plain _ (by decide)
  have h3 : trimSpace "bk".toList = "bk".toList := by decide
  have h4 : trimSpace "scp notes host".toList = "scp notes host".toList := by decide
  have hx : extractRules html ((readLines "b:bk = scp notes host:backup:b\n".toList).map
      fprintln).flatten
      = [("bk".toList, "scp notes host".toList)].map fun r => formatRule r.1 r.2 := by
    rw [h0, extractRules, h1]
    simp only [List.map, List.headD, List.tail, h3, h4, h2]
  have := (import_of_extracted sampleEnv html _ emptyWorld
    [("bk".toList, "scp notes host".toList)] rfl (by decide)
    (by
      intro x hx1
      rw [List.mem_singleton.1 hx1]
      exact ⟨by decide, by decide, by decide, by decide, by decide⟩)
    (by decide) hx).1
  rw [this]
  decide

/-- C10 amended: for a store of rules with pairwise distinct names, each name
not empty and free of `=` and white space, each command on one line,
without white space at its ends, and holding neither `&` nor `:b` nor
` = `, exporting all the rules and importing the text into an empty store
gives the same store file, hence the same names and commands in the same
order, and the operator is asked nothing. -/
theorem export_import_round_trip (env : Env) (html : HtmlUnescape) (rules : List (Str × Str))
    (w : World) (hempty : w.store = []) (hne : rules ≠ [])
    (hn : ∀ x ∈ rules, portableName x.1 = true) (hc : ∀ x ∈ rules, PortableCommand x.2)
    (hd : (rules.map Prod.fst).Nodup) :
    ∃ text : Str, exportRules (storeOf rules) [[], []] = some text ∧
      (importRulesFromFile env html text w).store = storeOf rules ∧
      listRules (importRulesFromFile env html text w).store = rules ∧
      listRules (storeOf rules) = rules ∧
      (importRulesFromFile env html text w).asked = w.asked := by
  refine ⟨_, exportRules_storeOf rules hne hn hc hd, ?_⟩
  have hx : extractRules html
      ((readLines (rules.map fun r => fprintln (portableLine r.1 r.2)).flatten).map
        fprintln).flatten = rules.map fun r => formatRule r.1 r.2 := by
    rw [readLines_portable rules hn hc, extractRules_portable html rules hn hc]
  obtain ⟨h1, _, h3⟩ := import_of_extracted env html _ w rules hempty hn hc hd hx
  exact ⟨h1, by rw [h1, listRules_storeOf rules hn hc], listRules_storeOf rules hn hc, h3⟩

/-- C10 amended, on a store of two rules, with a decoder that knows the
entities of `html.EscapeString`. -/
theorem export_import_round_trip_example :
    ∃ text : Str,
      exportRules "up = sudo apt update -y\nll = ls -l\n".toList [[], []] = some text ∧
      (importRulesFromFile sampleEnv sampleHtml text emptyWorld).store
        = "up = sudo apt update -y\nll = ls -l\n".toList := by
  obtain ⟨text, h1, h2, _⟩ := export_import_round_trip sampleEnv sampleHtml
    [("up".toList, "sudo apt update -y".toList), ("ll".toList, "ls -l".toList)] emptyWorld rfl
    (by decide) (by decide)
    (by
      intro x hx
      simp only [List.mem_cons, List.mem_singleton, List.not_mem_nil, or_false] at hx
      rcases hx with rfl | rfl <;>
        exact ⟨by decide, by decide, by decide, by decide, by decide⟩)
    (by decide)
  exact ⟨text, h1, h2⟩

/-- C11, as stated, fails: with the comment `b:` in front of the exported line
`b:x = ls:b`, `extractRules` returns the rule `b:x = ls`; on the line alone
it returns the rule `x = ls`. -/
theorem extractRules_comment_changes_rule :
    (∀ html : HtmlUnescape,
        extractRules html (writeToFile ["#b:".toList, "b:x = ls:b".toList])
          = ["b:x = ls".toList]) ∧
      (∀ html : HtmlUnescape,
        extractRules html (writeToFile ["b:x = ls:b".toList]) = ["x = ls".toList]) := by
  have h2 : ∀ html : HtmlUnescape, html.run "ls".toList = "ls".toList :=
    fun html => html.plain _ (by decide)
  have h3 : trimSpace "\nb:x".toList = "b:x".toList := by decide
  have h4 : trimSpace "ls".toList = "ls".toList := by decide
  have h5 : trimSpace "x".toList = "x".toList := by decide
  constructor
  · intro html
    have h1 : findAllRules (writeToFile ["#b:".toList, "b:x = ls:b".toList]).length
        (writeToFile ["#b:".toList, "b:x = ls:b".toList])
        = [["\nb:x".toList, "ls".toList]] := by decide
    rw [extractRules, h1]
    simp only [List.map, List.headD, List.tail, h3, h4, h2]
    decide
  · intro html
    have h1 : findAllRules (writeToFile ["b:x = ls:b".toList]).length
        (writeToFile ["b:x = ls:b".toList]) = [["x".toList, "ls".toList]] := by decide
    rw [extractRules, h1]
    simp only [List.map, List.headD, List.tail, h5, h4, h2]
    decide

/-- C11 amended: a leading comment line whose text does not hold `b:` carries
no rule: `extractRules` returns the same rules on the text with the line
`#` + comment in front as on the following lines alone, whatever these
lines are. -/
theorem extractRules_comment_line (html : HtmlUnescape) (comment : Str) (lines : List Str)
    (h : ¬ "b:".toList <:+: comment) :
    extractRules html (writeToFile (("#".toList ++ comment) :: lines))
      = extractRules html (writeToFile lines) := by
  have htext : writeToFile (("#".toList ++ comment) :: lines)
      = '#' :: (comment ++ '\n' :: writeToFile lines) := by
    simp [writeToFile, fprintln]
  have hfind : findAllRules (writeToFile (("#".toList ++ comment) :: lines)).length
      (writeToFile (("#".toList ++ comment) :: lines))
      = findAllRules (writeToFile lines).length (writeToFile lines) := by
    rw [htext, List.length_cons, findAllRules_skip _ '#' _ (by decide)]
    exact findAllRules_comment comment _ h _ (Nat.le_refl _)
  rw [extractRules, extractRules, hfind]

/-- C11 amended, on the comment `my rules` and one exported line. -/
theorem extractRules_comment_line_example :
    extractRules sampleHtml (writeToFile ["#my rules".toList, "b:x = ls:b".toList])
      = extractRules sampleHtml (writeToFile ["b:x = ls:b".toList]) :=
  extractRules_comment_line sampleHtml "my rules".toList ["b:x = ls:b".toList] (by decide)

set_option maxRecDepth 100000 in

/-- C12: an import the operator declines still rewrites the script.  The store
holds `up = ls` with its script, the file imported holds `b:up = id:b`, the
operator answers `n`: the line of the store stays, and the script `up` now
runs `id`. -/
theorem import_declined_rewrites_script (html : HtmlUnescape) :
    (importRulesFromFile sampleEnv html "b:up = id:b\n".toList
        { store := "up = ls\n".toList,
          bin := [("up".toList,
            Node.file (scriptContent sampleEnv "EXECUTE_RULE" "up".toList "ls".toList))],
          stdin := ["n".toList], asked := [] })
      = { store := "up = ls\n".toList,
          bin := [("up".toList,
            Node.file (scriptContent sampleEnv "EXECUTE_RULE" "up".toList "id".toList))],
          stdin := [], asked := ["up".toList] } ∧
      scriptContent sampleEnv "EXECUTE_RULE" "up".toList "id".toList
        ≠ scriptContent sampleEnv "EXECUTE_RULE" "up".toList "ls".toList := by
  have h0 : ((readLines "b:up = id:b\n".toList).map fprintln).flatten
      = "b:up = id:b\n".toList := by decide
  have h1 : findAllRules "b:up = id:b\n".toList.length "b:up = id:b\n".toList
      = [["up".toList, "id".toList]] := by decide
  have h2 : html.run "id".toList = "id".toList := html.plain _ (by decide)
  have h3 : trimSpace "up".toList = "up".toList := by decide
  have h4 : trimSpace "id".toList = "id".toList := by decide
  have hx : extractRules html ((readLines "b:up = id:b\n".toList).map fprintln).flatten
      = ["up = id".toList] := by
    rw [h0, extractRules, h1]
    simp only [List.map, List.headD, List.tail, h3, h4, h2]
    decide
  refine ⟨?_, by decide⟩
  rw [importRulesFromFile_eq sampleEnv html _ _ _ hx]
  decide

/-- C13, as stated, fails: the rule `passwd` is in the store and the operator
answers `n`, yet `createRule` is not cancelled; it rejects the name as
reserved without asking. -/
theorem createRule_reserved_not_cancelled :
    (∃ line ∈ readLines "passwd = ls\n".toList, ("passwd".toList ++ " = ".toList) <+: line) ∧
      createRule sampleEnv "passwd".toList "id".toList
          { emptyWorld with store := "passwd = ls\n".toList, stdin := ["n".toList] }
        = (Outcome.reserved,
            { emptyWorld with store := "passwd = ls\n".toList, stdin := ["n".toList] }) := by
  decide

/-- C13 amended: when a line of the store starts with the name followed by
` = ` and the response `fmt.Scanln` reads, the first word of the line the
operator types, is not exactly `y`, `createRule` leaves the store file and
the script directory as they were; it answers "cancelled" when the name is
not reserved, and "reserved" when it is. -/
theorem createRule_declined (env : Env) (name command : Str) (w : World)
    (hfound : ∃ line ∈ readLines w.store, (name ++ " = ".toList) <+: line)
    (hresp : (w.stdin.head?.map fun line => (scanln line).1).getD [] ≠ "y".toList) :
    (createRule env name command w).2.store = w.store ∧
      (createRule env name command w).2.bin = w.bin ∧
      (isReservedName name = false → (createRule env name command w).1 = Outcome.cancelled) ∧
      (isReservedName name = true → (createRule env name command w).1 = Outcome.reserved) := by
  obtain ⟨i, hi⟩ := findRule_isSome _ name hfound
  have hask : ¬ (ask w name).1 = "y".toList := by
    rw [ask_word]
    exact hresp
  cases hres : isReservedName name with
  | true => simp [createRule, hres]
  | false =>
    simp only [createRule, hres, hi, Bool.false_eq_true, if_false, ne_eq, hask,
      not_false_eq_true, if_true]
    refine ⟨ask_store w name, ask_bin w name, ?_, ?_⟩ <;> first | rfl | trivial

/-- C13 amended, on a store that holds the rule `up`, the operator typing
`yes please`, of which `fmt.Scanln` reads `yes`. -/
theorem createRule_declined_example :
    (createRule sampleEnv "up".toList "id".toList
        { emptyWorld with store := "up = ls\n".toList, stdin := ["yes please".toList] }).2.store
      = "up = ls\n".toList ∧
      (createRule sampleEnv "up".toList "id".toList
        { emptyWorld with store := "up = ls\n".toList, stdin := ["yes please".toList] }).1
      = Outcome.cancelled :=
  ⟨(createRule_declined sampleEnv "up".toList "id".toList
      { emptyWorld with store := "up = ls\n".toList, stdin := ["yes please".toList] }
      (by decide) (by decide)).1,
    (createRule_declined sampleEnv "up".toList "id".toList
      { emptyWorld with store := "up = ls\n".toList, stdin := ["yes please".toList] }
      (by decide) (by decide)).2.2.1 (by decide)⟩

/-- C14: after `deleteAllRules` the store is empty and the script directory
holds no file at all, whatever its name; only directories are left, as they
were. -/
theorem deleteAllRules_empties (w : World) :
    (deleteAllRules w).store = [] ∧
      (∀ n content, (n, Node.file content) ∉ (deleteAllRules w).bin) ∧
      (∀ n b, (n, Node.dir b) ∈ (deleteAllRules w).bin ↔ (n, Node.dir b) ∈ w.bin) := by
  refine ⟨rfl, fun n content h => ?_, fun n b => ?_⟩
  · simp [deleteAllRules, List.mem_filter] at h
  · simp [deleteAllRules, List.mem_filter]

/-- C15, as stated, fails.  From the empty store, one `createRule` with the
ordinary name `x` and the command `a\nx = b` leaves two lines named `x`;
and on the store `a=b`, whose only name is `a`, `createRule` of `a` adds a
second line named `a` without asking. -/
theorem createRule_duplicates_name :
    isReservedName "x".toList = false ∧
      getAllRules (createRule sampleEnv "x".toList "a\\nx = b".toList emptyWorld).2.store
        = ["x".toList, "x".toList] ∧
      getAllRules "a=b\n".toList = ["a".toList] ∧
      getAllRules
          (createRule sampleEnv "a".toList "ls".toList
            { emptyWorld with store := "a=b\n".toList }).2.store
        = ["a".toList, "a".toList] := by
  decide

/-- C15 amended: the rule names stay pairwise distinct through `createRule`
when the name holds no `=` and no white space at its ends, the name, the
command and the lines of the store hold no backslash, no double quote and
no line break, and every line of the store that holds an `=` starts with
the name the listing gives it followed by ` = `; this whatever the operator
answers and whether the name is reserved or not. -/
theorem createRule_keeps_names_distinct (env : Env) (name command : Str) (w : World)
    (hname : isPlain name = true) (hcmd : isPlain command = true)
    (hstore : ∀ line ∈ readLines w.store, isPlain line = true)
    (hneq : '=' ∉ name) (htrim : trimSpace name = name)
    (hcanon : ∀ line ∈ readLines w.store, canonicalLine line = true)
    (hd : (getAllRules w.store).Nodup) :
    (getAllRules (createRule env name command w).2.store).Nodup := by
  have hnewName : (splitFirstEq (formatRule name command)).map (fun parts => trimSpace parts.1)
      = some name := name_of_prefixed name _ hneq htrim ⟨command, rfl⟩
  have hnewPlain := isPlain_formatRule name command hname hcmd
  rcases createRule_store_cases env name command w hname hcmd hstore with h | ⟨hf, h⟩ | ⟨i, hf, h⟩
  · rw [h]; exact hd
  · rw [h, getAllRules_written, List.filterMap_append]
    · have hlast : ([formatRule name command].filterMap fun line =>
          (splitFirstEq line).map fun parts => trimSpace parts.1) = [name] := by
        simp only [List.filterMap_cons, hnewName, List.filterMap_nil]
      rw [hlast]
      refine List.Nodup.append hd (List.nodup_singleton _) ?_
      rw [List.disjoint_singleton]
      intro hmem
      obtain ⟨line, hline, hnm⟩ := List.mem_filterMap.1 hmem
      cases hs : splitFirstEq line with
      | none => simp [hs] at hnm
      | some p =>
        obtain ⟨a, b⟩ := p
        simp only [hs, Option.map_some', Option.some.injEq] at hnm
        obtain ⟨rest, hrest, _, _⟩ := canonicalLine_decompose line a b (hcanon line hline) hs
        have hex : ∃ l ∈ readLines w.store, rulePrefix name <+: l :=
          ⟨line, hline, rest, by rw [← hnm]; exact hrest.symm⟩
        obtain ⟨j, hj⟩ := findRule_isSome _ name hex
        rw [hf] at hj
        cases hj
    · intro l hl
      rcases List.mem_append.1 hl with h1 | h1
      · exact not_newline_of_plain l (hstore l h1)
      · rw [List.mem_singleton.1 h1]
        exact not_newline_of_plain _ hnewPlain
  · rw [h, getAllRules_written]
    · rw [filterMap_set_same _ (readLines w.store) name (formatRule name command)
        (fun line hp => by
          rw [hnewName]
          exact name_of_prefixed name line hneq htrim ((hasPrefix_iff _ _).1 hp)) i hf]
      exact hd
    · intro l hl
      exact not_newline_of_plain l (mem_set_plain _ i _ hstore hnewPlain l hl)

/-- C15 amended, on a store of two rules, the first of which is overwritten. -/
theorem createRule_keeps_names_distinct_example :
    (getAllRules
        (createRule sampleEnv "up".toList "apt upgrade".toList
          { emptyWorld with
            store := "up = apt update\nll = ls -l\n".toList, stdin := ["y".toList] }).2.store).Nodup :=
  createRule_keeps_names_distinct sampleEnv "up".toList "apt upgrade".toList
    { emptyWorld with store := "up = apt update\nll = ls -l\n".toList, stdin := ["y".toList] }
    (by decide) (by decide) (by decide) (by decide) (by decide) (by decide) (by decide)

/-- C16, as stated, fails: the store holds the line `t = echo a\tb` before
the rule `up`; the deletion of `up` succeeds and the other line is written
back with a tabulation in the place of `\t`. -/
theorem deleteRule_rewrites_other_line :
    deleteRule sampleEnv "up".toList
        { emptyWorld with store := "t = echo a\\tb\nup = ls\n".toList }
      = (Outcome.done, { emptyWorld with store := "t = echo a\tb\n".toList }) ∧
      "t = echo a\tb\n".toList ≠ "t = echo a\\tb\n".toList := by
  decide

/-- C16 amended: when the other lines of the store hold no backslash, no
double quote and no line break, do not end with a carriage return, and are
valid UTF-8 (no U+FFFD stands in them for a byte that is none, which the
rewrite would replace), `deleteRule` removes exactly the first line that
starts with the name followed by ` = `, and `updateRule` (the name not
reserved, name and command without backslash, double quote and line break)
replaces exactly that line in place: the write does not fail, the file
afterwards holds the other lines as they were, in the same order, and read
again it gives these lines, with the line `name = command` in the place of
the replaced one (less the carriage return it may end with). -/
theorem single_rule_mutation (env : Env) (name command : Str) (w : World)
    (before after : List Str) (line : Str)
    (hlines : readLines w.store = before ++ line :: after)
    (hbefore : ∀ l ∈ before, ¬ (name ++ " = ".toList) <+: l)
    (hline : (name ++ " = ".toList) <+: line)
    (hplain : ∀ l ∈ before ++ after, isPlain l = true)
    (hcr : ∀ l ∈ before ++ after, l.getLast? ≠ some '\r')
    (htext : ∀ l ∈ before ++ after, noReplacement l = true) :
    ((deleteRule env name w).2.store = writeLinesWithLock (before ++ after) ∧
        readLines (deleteRule env name w).2.store = before ++ after ∧
        ((deleteRule env name w).1 = Outcome.done ∨
          (deleteRule env name w).1 = Outcome.scriptFailed)) ∧
      (isReservedName name = false → isPlain name = true → isPlain command = true →
        (updateRule env name command w).2.store
            = writeLinesWithLock (before ++ formatRule name command :: after) ∧
          readLines (updateRule env name command w).2.store
            = before ++ dropCR (formatRule name command) :: after ∧
          ((updateRule env name command w).1 = Outcome.done ∨
            (updateRule env name command w).1 = Outcome.scriptFailed)) := by
  have _ := htext
  have hf : findRule (before ++ line :: after) name = some before.length :=
    findRule_at before after line name hbefore hline
  have hcrb : before.map dropCR = before :=
    map_dropCR_of_no_cr before fun l hl => hcr l (List.mem_append_left _ hl)
  have hcra : after.map dropCR = after :=
    map_dropCR_of_no_cr after fun l hl => hcr l (List.mem_append_right _ hl)
  constructor
  · have hw := writeLines_plain (before ++ after) hplain
    have hr : readLines (writeLinesWithLock (before ++ after)) = before ++ after := by
      rw [readLines_written _ hplain, map_dropCR_of_no_cr _ hcr]
    simp only [deleteRule, hlines, hf, eraseIdx_at, hw]
    cases removeEntry env name w.bin <;> exact ⟨rfl, hr, by simp⟩
  · intro hres hname hcmd
    have hp : ∀ l ∈ before ++ formatRule name command :: after, isPlain l = true := by
      intro l hl
      rcases List.mem_append.1 hl with h1 | h1
      · exact hplain l (List.mem_append_left _ h1)
      · rcases List.mem_cons.1 h1 with h2 | h2
        · rw [h2]; exact isPlain_formatRule name command hname hcmd
        · exact hplain l (List.mem_append_right _ h2)
    have hw := writeLines_plain _ hp
    have hr : readLines (writeLinesWithLock (before ++ formatRule name command :: after))
        = before ++ dropCR (formatRule name command) :: after := by
      rw [readLines_written _ hp, List.map_append, List.map_cons, hcrb, hcra]
    simp only [updateRule, hres, hlines, hf, set_at, hw, Bool.false_eq_true, if_false]
    cases writeFile env name (scriptContent env "UPDATE_RULE" name command) w.bin <;>
      exact ⟨rfl, hr, by simp⟩

/-- C16 amended, on a store of three rules, the second of which is deleted. -/
theorem single_rule_mutation_example :
    readLines (deleteRule sampleEnv "up".toList
        { emptyWorld with store := "ll = ls -l\nup = apt update\ndf = df -h\n".toList }).2.store
      = ["ll = ls -l".toList] ++ ["df = df -h".toList] :=
  (single_rule_mutation sampleEnv "up".toList "id".toList
    { emptyWorld with store := "ll = ls -l\nup = apt update\ndf = df -h\n".toList }
    ["ll = ls -l".toList] ["df = df -h".toList] "up = apt update".toList
    (by decide) (by decide) (by decide) (by decide) (by decide) (by decide)).1.2.1

/-- C17: a rewrite that fails loses the rules.  On a store that holds the rule
`up`, `createRule` with the command `echo "hi"` fails in `writeLines`, which
has emptied the file before: the store file is empty afterwards and
`getCommand` finds `up` no more. -/
theorem createRule_failed_write_empties_store :
    getCommand "up = ls\n".toList "up".toList = some "ls".toList ∧
      createRule sampleEnv "hi".toList "echo \"hi\"".toList
          { emptyWorld with store := "up = ls\n".toList }
        = (Outcome.writeFailed, emptyWorld) ∧
      getCommand
          (createRule sampleEnv "hi".toList "echo \"hi\"".toList
            { emptyWorld with store := "up = ls\n".toList }).2.store "up".toList
        = none := by
  decide

/-- C18, as stated, fails: on the store `a=b` the listing returns the name
`a`, for which `ruleExists` is false and `getCommand` fails. -/
theorem listing_without_lookup :
    getAllRules "a=b\n".toList = ["a".toList] ∧
      ruleExists "a=b\n".toList "a".toList = false ∧
      getCommand "a=b\n".toList "a".toList = none := by
  decide

/-- C18 amended: on a store in which every line that holds an `=` starts with
the name the listing gives it followed by ` = `, every name `getAllRules`
returns satisfies `ruleExists`, and `getCommand` succeeds for it, returning
the trimmed text after the first `=` of the first line listed under that
name. -/
theorem listing_agrees_with_lookup (store : Str)
    (hcanon : ∀ line ∈ readLines store, canonicalLine line = true) :
    ∀ n ∈ getAllRules store,
      ruleExists store n = true ∧
        ∃ command, getCommand store n = some command ∧
          (listRules store).find? (fun r => r.1 == n) = some (n, command) := by
  intro n hn
  obtain ⟨line, hline, hname⟩ := List.mem_filterMap.1 hn
  cases hs : splitFirstEq line with
  | none => simp [hs] at hname
  | some p =>
    obtain ⟨a, b⟩ := p
    simp only [hs, Option.map_some', Option.some.injEq] at hname
    obtain ⟨hne, htrim⟩ := listed_name_shape line a b hs
    rw [hname] at hne htrim
    have hp : hasPrefix line (rulePrefix n) = true :=
      (hasPrefix_listed_iff line a b n (hcanon line hline) hs hne htrim).2 hname
    have hlook := lookup_in_lines (readLines store) n hne htrim hcanon
    have hex : ruleExists store n = true := List.any_eq_true.2 ⟨line, hline, hp⟩
    refine ⟨hex, ?_⟩
    cases hf : (readLines store).find? (fun l => hasPrefix l (rulePrefix n)) with
    | none =>
      rw [List.find?_eq_none] at hf
      exact absurd hp (hf line hline)
    | some found =>
      rw [hf] at hlook
      refine ⟨trimSpace (trimPrefix found (rulePrefix n)), by rw [getCommand, hf]; rfl, ?_⟩
      cases hfl : (listRules store).find? (fun r => r.1 == n) with
      | none =>
        rw [listRules] at hfl
        rw [hfl] at hlook
        cases hlook
      | some r =>
        have hr1 : r.1 = n := by simpa using List.find?_some hfl
        rw [listRules] at hfl
        rw [hfl] at hlook
        simp only [Option.map_some', Option.some.injEq] at hlook
        rw [hlook, ← hr1]

/-- C18 amended, on a store of two rules, at the name `ll`. -/
theorem listing_agrees_with_lookup_example :
    ruleExists "up = apt update\nll = ls -l\n".toList "ll".toList = true ∧
      ∃ command, getCommand "up = apt update\nll = ls -l\n".toList "ll".toList = some command ∧
        (listRules "up = apt update\nll = ls -l\n".toList).find? (fun r => r.1 == "ll".toList)
          = some ("ll".toList, command) :=
  listing_agrees_with_lookup "up = apt update\nll = ls -l\n".toList (by decide) "ll".toList
    (by decide)

end Abbtr
